import Mathlib

/-!
The honestvote.io full node: peer discovery and replication (`core-p2p/src/entrance.go`).

A shallow embedding of `main`'s discovery loop, `listenConn`, `handleConn` and
`updateMongo`, together with the parts of the Go standard library they call
(`strconv.Itoa`, `strconv.Atoi`, `encoding/json`).

Conventions
* a byte is a natural number below 256; a Go `string` / `[]byte` is a `List Nat`;
* a Go `int` is an `Int` (the 64-bit range is enforced where the library does);
* a `net.Conn` is identified by a natural number;
* goroutines are interleaved at the granularity of one loop iteration.
-/

namespace HonestVote

/-! ## Bytes and ASCII literals -/

/-- The bytes of an ASCII string literal. -/
def ascii (s : String) : List Nat := s.toList.map Char.toNat

/-! ## `strconv` -/

/-- Errors reported by `strconv` (`*NumError.Err`). -/
inductive NumError where
  | ErrSyntax
  | ErrRange
  deriving DecidableEq, Repr

/-- Largest `uint64`. -/
def maxUint64 : Nat := 18446744073709551615

/-- The decimal digits of `u`, most significant first, pushed in front of `acc`
(`strconv.formatBits` for base 10; `fuel` bounds the number of digits). -/
def formatDigits : Nat → Nat → List Nat → List Nat
  | 0, _, acc => acc
  | fuel + 1, u, acc =>
    if u < 10 then (48 + u) :: acc
    else formatDigits fuel (u / 10) ((48 + u % 10) :: acc)

/-- Decimal text of an unsigned number (`strconv.FormatUint(u, 10)`). -/
def FormatUint (u : Nat) : List Nat := formatDigits (u + 1) u []

/-- Decimal text of an integer (`strconv.Itoa`, i.e. `FormatInt(int64(i), 10)`). -/
def Itoa (i : Int) : List Nat :=
  if i < 0 then 45 :: FormatUint (-i).toNat else FormatUint i.toNat

/-- The digit loop of `strconv.ParseUint(s, 10, 64)`: `n` is the value so far. -/
def parseUintLoop : List Nat → Nat → Nat × Option NumError
  | [], n => (n, none)
  | c :: cs, n =>
    if 48 ≤ c ∧ c ≤ 57 then
      if n ≥ maxUint64 / 10 + 1 then (maxUint64, some NumError.ErrRange)
      else if n * 10 + (c - 48) > maxUint64 then (maxUint64, some NumError.ErrRange)
      else parseUintLoop cs (n * 10 + (c - 48))
    else (0, some NumError.ErrSyntax)

/-- Unsigned decimal parse (`strconv.ParseUint(s, 10, 64)`). -/
def ParseUint (s : List Nat) : Nat × Option NumError :=
  match s with
  | [] => (0, some NumError.ErrSyntax)
  | _ :: _ => parseUintLoop s 0

/-- Signed decimal parse (`strconv.ParseInt(s, 10, 64)`). -/
def ParseInt (s : List Nat) : Int × Option NumError :=
  match s with
  | [] => (0, some NumError.ErrSyntax)
  | c :: cs =>
    let neg : Bool := c = 45
    let body := if c = 43 ∨ c = 45 then cs else s
    match ParseUint body with
    | (_, some NumError.ErrSyntax) => (0, some NumError.ErrSyntax)
    | (un, _) =>
      if !neg ∧ un ≥ 2 ^ 63 then (2 ^ 63 - 1, some NumError.ErrRange)
      else if neg ∧ un > 2 ^ 63 then (-(2 ^ 63), some NumError.ErrRange)
      else (if neg then -(un : Int) else (un : Int), none)

/-- Decimal parse to `int` (`strconv.Atoi` on a 64-bit platform: the value and the
error, `none` standing for `nil`). -/
def Atoi (s : List Nat) : Int × Option NumError := ParseInt s

/-! ## `unicode/utf8` -/

/-- The replacement character U+FFFD (`utf8.RuneError`). -/
def RuneError : Nat := 0xFFFD

/-- First rune of `p` and its width in bytes (`utf8.DecodeRune`).  The masks and
shifts of the source are written with `%` and `*`: the bit fields are disjoint. -/
def DecodeRune (p : List Nat) : Nat × Nat :=
  match p with
  | [] => (RuneError, 0)
  | p0 :: t =>
    if p0 < 0x80 then (p0, 1)
    else if p0 < 0xC2 ∨ 0xF4 < p0 then (RuneError, 1)
    else
      let sz := if p0 < 0xE0 then 2 else if p0 < 0xF0 then 3 else 4
      let lo := if p0 = 0xE0 then 0xA0 else if p0 = 0xF0 then 0x90 else 0x80
      let hi := if p0 = 0xED then 0x9F else if p0 = 0xF4 then 0x8F else 0xBF
      if p.length < sz then (RuneError, 1)
      else
        match t with
        | [] => (RuneError, 1)
        | b1 :: t1 =>
          if b1 < lo ∨ hi < b1 then (RuneError, 1)
          else if sz ≤ 2 then (p0 % 32 * 64 + b1 % 64, 2)
          else
            match t1 with
            | [] => (RuneError, 1)
            | b2 :: t2 =>
              if b2 < 0x80 ∨ 0xBF < b2 then (RuneError, 1)
              else if sz ≤ 3 then (p0 % 16 * 4096 + b1 % 64 * 64 + b2 % 64, 3)
              else
                match t2 with
                | [] => (RuneError, 1)
                | b3 :: _ =>
                  if b3 < 0x80 ∨ 0xBF < b3 then (RuneError, 1)
                  else (p0 % 8 * 262144 + b1 % 64 * 4096 + b2 % 64 * 64 + b3 % 64, 4)

/-- UTF-8 bytes of a rune (`utf8.EncodeRune`; surrogates and values above
U+10FFFF are written as U+FFFD). -/
def EncodeRune (r : Nat) : List Nat :=
  if r ≤ 0x7F then [r]
  else if r ≤ 0x7FF then [0xC0 + r / 64, 0x80 + r % 64]
  else if r > 0x10FFFF ∨ (0xD800 ≤ r ∧ r ≤ 0xDFFF) then [0xEF, 0xBF, 0xBD]
  else if r ≤ 0xFFFF then [0xE0 + r / 4096, 0x80 + r / 64 % 64, 0x80 + r % 64]
  else [0xF0 + r / 262144, 0x80 + r / 4096 % 64, 0x80 + r / 64 % 64, 0x80 + r % 64]

/-- Whether `s` is well-formed UTF-8 (`utf8.Valid`); `fuel` bounds the runes. -/
def validUTF8 : Nat → List Nat → Bool
  | 0, s => s.isEmpty
  | fuel + 1, s =>
    match s with
    | [] => true
    | c :: rest =>
      if c < 0x80 then validUTF8 fuel rest
      else
        let d := DecodeRune (c :: rest)
        if d.2 = 1 then false else validUTF8 fuel ((c :: rest).drop d.2)

/-- Whether `s` is well-formed UTF-8 (`utf8.Valid`). -/
def Valid (s : List Nat) : Bool := validUTF8 s.length s

/-! ## `encoding/json`: string literals -/

/-- Value of a hexadecimal digit, as in `getu4`. -/
def hexVal (c : Nat) : Option Nat :=
  if 48 ≤ c ∧ c ≤ 57 then some (c - 48)
  else if 97 ≤ c ∧ c ≤ 102 then some (c - 97 + 10)
  else if 65 ≤ c ∧ c ≤ 70 then some (c - 65 + 10)
  else none

/-- Rune of a leading `\uXXXX` escape (`getu4`; `none` is the source's `-1`). -/
def getu4 (s : List Nat) : Option Nat :=
  match s with
  | b :: u :: h1 :: h2 :: h3 :: h4 :: _ =>
    if b = 92 ∧ u = 117 then
      match hexVal h1, hexVal h2, hexVal h3, hexVal h4 with
      | some a, some b, some c, some d => some (((a * 16 + b) * 16 + c) * 16 + d)
      | _, _, _, _ => none
    else none
  | _ => none

/-- The first loop of `unquoteBytes`: the longest prefix needing no unquoting and
what follows it. -/
def plainPrefix : Nat → List Nat → List Nat × List Nat
  | 0, s => ([], s)
  | fuel + 1, s =>
    match s with
    | [] => ([], [])
    | c :: rest =>
      if c = 92 ∨ c = 34 ∨ c < 32 then ([], c :: rest)
      else if c < 0x80 then
        let r := plainPrefix fuel rest
        (c :: r.1, r.2)
      else
        let d := DecodeRune (c :: rest)
        if d.1 = RuneError ∧ d.2 = 1 then ([], c :: rest)
        else
          let r := plainPrefix fuel ((c :: rest).drop d.2)
          ((c :: rest).take d.2 ++ r.1, r.2)

/-- The second loop of `unquoteBytes`: escapes are resolved and malformed UTF-8
is coerced to U+FFFD. -/
def unquoteLoop : Nat → List Nat → Option (List Nat)
  | 0, _ => none
  | fuel + 1, s =>
    match s with
    | [] => some []
    | c :: rest =>
      if c = 92 then
        match rest with
        | [] => none
        | e :: rest1 =>
          if e = 34 ∨ e = 92 ∨ e = 47 ∨ e = 39 then (unquoteLoop fuel rest1).map (e :: ·)
          else if e = 98 then (unquoteLoop fuel rest1).map (8 :: ·)
          else if e = 102 then (unquoteLoop fuel rest1).map (12 :: ·)
          else if e = 110 then (unquoteLoop fuel rest1).map (10 :: ·)
          else if e = 114 then (unquoteLoop fuel rest1).map (13 :: ·)
          else if e = 116 then (unquoteLoop fuel rest1).map (9 :: ·)
          else if e = 117 then
            match getu4 (c :: rest) with
            | none => none
            | some rr =>
              let after := rest.drop 5
              if 0xD800 ≤ rr ∧ rr < 0xE000 then
                match getu4 after with
                | some rr1 =>
                  if rr < 0xDC00 ∧ 0xDC00 ≤ rr1 ∧ rr1 < 0xE000 then
                    (unquoteLoop fuel (after.drop 6)).map
                      (EncodeRune ((rr - 0xD800) * 1024 + (rr1 - 0xDC00) + 0x10000) ++ ·)
                  else (unquoteLoop fuel after).map (EncodeRune RuneError ++ ·)
                | none => (unquoteLoop fuel after).map (EncodeRune RuneError ++ ·)
              else (unquoteLoop fuel after).map (EncodeRune rr ++ ·)
          else none
      else if c = 34 ∨ c < 32 then none
      else if c < 0x80 then (unquoteLoop fuel rest).map (c :: ·)
      else
        let d := DecodeRune (c :: rest)
        (unquoteLoop fuel ((c :: rest).drop d.2)).map (EncodeRune d.1 ++ ·)

/-- Contents of a string literal, given the bytes between its quotes
(`unquoteBytes` without the quote check, which the scanner has done). -/
def unquoteBytes (s : List Nat) : Option (List Nat) :=
  let p := plainPrefix s.length s
  match p.2 with
  | [] => some s
  | _ :: _ => (unquoteLoop (p.2.length + 1) p.2).map (p.1 ++ ·)

/-! ## `encoding/json`: the scanner -/

/-- JSON whitespace (`isSpace`). -/
def isSpace (c : Nat) : Bool := c = 32 ∨ c = 9 ∨ c = 13 ∨ c = 10

/-- Drop leading whitespace (`scanSkipSpace`). -/
def skipSpace : List Nat → List Nat
  | [] => []
  | c :: rest => if isSpace c then skipSpace rest else c :: rest

/-- Whether `c` is a hexadecimal digit (`stateInStringEscU`). -/
def isHex (c : Nat) : Bool :=
  (48 ≤ c ∧ c ≤ 57) ∨ (97 ≤ c ∧ c ≤ 102) ∨ (65 ≤ c ∧ c ≤ 70)

/-- Scan a string literal after its opening quote (`stateInString` and its escape
states): the bytes up to the closing quote, and what follows that quote. -/
def scanString : List Nat → Option (List Nat × List Nat)
  | [] => none
  | c :: rest =>
    if c = 34 then some ([], rest)
    else if c = 92 then
      match rest with
      | [] => none
      | e :: rest1 =>
        if e = 98 ∨ e = 102 ∨ e = 110 ∨ e = 114 ∨ e = 116 ∨ e = 92 ∨ e = 47 ∨ e = 34 then
          (scanString rest1).map (fun r => (c :: e :: r.1, r.2))
        else if e = 117 then
          match rest1 with
          | h1 :: h2 :: h3 :: h4 :: rest5 =>
            if isHex h1 ∧ isHex h2 ∧ isHex h3 ∧ isHex h4 then
              (scanString rest5).map (fun r => (c :: e :: h1 :: h2 :: h3 :: h4 :: r.1, r.2))
            else none
          | _ => none
        else none
    else if c < 32 then none
    else (scanString rest).map (fun r => (c :: r.1, r.2))

/-- The longest run of decimal digits at the head of `s`, and the rest. -/
def takeDigits : List Nat → List Nat × List Nat
  | [] => ([], [])
  | c :: rest =>
    if 48 ≤ c ∧ c ≤ 57 then
      let r := takeDigits rest
      (c :: r.1, r.2)
    else ([], c :: rest)

/-- Exponent part of a number (`stateE`, `stateESign`, `stateE0`). -/
def scanExponent (s : List Nat) : Option (List Nat × List Nat) :=
  match s with
  | [] => some ([], [])
  | c :: rest =>
    if c = 101 ∨ c = 69 then
      match rest with
      | [] => none
      | g :: rest1 =>
        let sign := if g = 43 ∨ g = 45 then [g] else []
        let body := if g = 43 ∨ g = 45 then rest1 else g :: rest1
        let d := takeDigits body
        if d.1 = [] then none else some (c :: sign ++ d.1, d.2)
    else some ([], c :: rest)

/-- Fraction and exponent of a number (`stateDot`, `stateDot0`). -/
def scanFraction (s : List Nat) : Option (List Nat × List Nat) :=
  match s with
  | [] => some ([], [])
  | c :: rest =>
    if c = 46 then
      let d := takeDigits rest
      if d.1 = [] then none
      else (scanExponent d.2).map (fun r => (c :: d.1 ++ r.1, r.2))
    else scanExponent (c :: rest)

/-- Scan a number literal (`stateNeg`, `state0`, `state1`): its text and the rest. -/
def scanNumber (s : List Nat) : Option (List Nat × List Nat) :=
  let sign := match s with
    | c :: _ => if c = 45 then [c] else []
    | [] => []
  match s.drop sign.length with
  | [] => none
  | d :: rest =>
    if d = 48 then (scanFraction rest).map (fun r => (sign ++ d :: r.1, r.2))
    else if 49 ≤ d ∧ d ≤ 57 then
      let ds := takeDigits rest
      (scanFraction ds.2).map (fun r => (sign ++ d :: ds.1 ++ r.1, r.2))
    else none

/-- If `lit` is a prefix of `s`, what follows it. -/
def stripPrefix (lit s : List Nat) : Option (List Nat) :=
  if lit.isPrefixOf s then some (s.drop lit.length) else none

/-- A scanned JSON value.  String literals and object keys keep the bytes
between their quotes, numbers keep their text: unquoting and conversion happen
when the value is stored. -/
inductive JValue where
  | null
  | bool (b : Bool)
  | number (lit : List Nat)
  | string (raw : List Nat)
  | array (elems : List JValue)
  | object (members : List (List Nat × JValue))

mutual
/-- Scan one JSON value (`stateBeginValue`): the value and the unread input. -/
def parseValue : Nat → List Nat → Option (JValue × List Nat)
  | 0, _ => none
  | fuel + 1, s =>
    match skipSpace s with
    | [] => none
    | c :: rest =>
      if c = 123 then
        match skipSpace rest with
        | [] => none
        | c1 :: rest1 =>
          if c1 = 125 then some (JValue.object [], rest1)
          else (parseMembers fuel (c1 :: rest1)).map (fun r => (JValue.object r.1, r.2))
      else if c = 91 then
        match skipSpace rest with
        | [] => none
        | c1 :: rest1 =>
          if c1 = 93 then some (JValue.array [], rest1)
          else (parseElems fuel (c1 :: rest1)).map (fun r => (JValue.array r.1, r.2))
      else if c = 34 then (scanString rest).map (fun r => (JValue.string r.1, r.2))
      else if c = 45 ∨ (48 ≤ c ∧ c ≤ 57) then
        (scanNumber (c :: rest)).map (fun r => (JValue.number r.1, r.2))
      else if c = 116 then
        (stripPrefix (ascii "rue") rest).map (fun r => (JValue.bool true, r))
      else if c = 102 then
        (stripPrefix (ascii "alse") rest).map (fun r => (JValue.bool false, r))
      else if c = 110 then
        (stripPrefix (ascii "ull") rest).map (fun r => (JValue.null, r))
      else none
/-- Elements of a non-empty array up to and including the closing bracket. -/
def parseElems : Nat → List Nat → Option (List JValue × List Nat)
  | 0, _ => none
  | fuel + 1, s =>
    match parseValue fuel s with
    | none => none
    | some (v, rest) =>
      match skipSpace rest with
      | [] => none
      | c :: rest1 =>
        if c = 44 then (parseElems fuel rest1).map (fun r => (v :: r.1, r.2))
        else if c = 93 then some ([v], rest1)
        else none
/-- Members of a non-empty object up to and including the closing brace. -/
def parseMembers : Nat → List Nat → Option (List (List Nat × JValue) × List Nat)
  | 0, _ => none
  | fuel + 1, s =>
    match skipSpace s with
    | [] => none
    | q :: rest =>
      if q = 34 then
        match scanString rest with
        | none => none
        | some (key, rest1) =>
          match skipSpace rest1 with
          | [] => none
          | c :: rest2 =>
            if c = 58 then
              match parseValue fuel rest2 with
              | none => none
              | some (v, rest3) =>
                match skipSpace rest3 with
                | [] => none
                | c1 :: rest4 =>
                  if c1 = 44 then
                    (parseMembers fuel rest4).map (fun r => ((key, v) :: r.1, r.2))
                  else if c1 = 125 then some ([(key, v)], rest4)
                  else none
            else none
      else none
end

/-! ## `encoding/json`: decoding into `[]Candidate` -/

/-- A tally record (`type Candidate struct`, with its `json` tags `name`, `key`,
`election`, `votes`). `Votes` is an `int32`. -/
structure Candidate where
  Name : List Nat
  Key : List Nat
  Election : List Nat
  Votes : Int
  deriving DecidableEq, Repr

/-- The zero `Candidate`. -/
def Candidate.zero : Candidate := ⟨[], [], [], 0⟩

/-- The fields of `Candidate`, in declaration order. -/
inductive Field where
  | name
  | key
  | election
  | votes
  deriving DecidableEq, Repr

/-- The JSON name of a field, from its struct tag. -/
def Field.tag : Field → List Nat
  | Field.name => ascii "name"
  | Field.key => ascii "key"
  | Field.election => ascii "election"
  | Field.votes => ascii "votes"

/-- Clear bit `0x20` of a byte (`b & caseMask`). -/
def clearCase (b : Nat) : Nat := b - b / 32 % 2 * 32

/-- Case-insensitive comparison of a field name `s` (ASCII) with a key `t`
(`equalFoldRight`): ASCII letters match in either case, `s`/`S` also match the
long s U+017F and `k`/`K` the Kelvin sign U+212A. -/
def equalFold : List Nat → List Nat → Bool
  | [], t => t.isEmpty
  | sb :: s, t =>
    match t with
    | [] => false
    | tb :: t1 =>
      if tb < 0x80 then
        if sb = tb then equalFold s t1
        else if 65 ≤ clearCase sb ∧ clearCase sb ≤ 90 ∧ clearCase sb = clearCase tb then
          equalFold s t1
        else false
      else
        let d := DecodeRune (tb :: t1)
        if sb = 115 ∨ sb = 83 then
          if d.1 = 0x17F then equalFold s ((tb :: t1).drop d.2) else false
        else if sb = 107 ∨ sb = 75 then
          if d.1 = 0x212A then equalFold s ((tb :: t1).drop d.2) else false
        else false

/-- The field a key selects: an exact match of the tag, else the first field whose
tag matches case-insensitively. -/
def lookupField (key : List Nat) : Option Field :=
  let fields := [Field.name, Field.key, Field.election, Field.votes]
  match fields.find? (fun f => f.tag = key) with
  | some f => some f
  | none => fields.find? (fun f => equalFold f.tag key)

/-- Store a value in a `string` field (`literalStore` / `array` / `object` on a
string kind): a string literal is unquoted and stored, `null` leaves the field,
anything else is an `UnmarshalTypeError`. -/
def storeString (v : JValue) (old : List Nat) : Option (List Nat) :=
  match v with
  | JValue.string raw => unquoteBytes raw
  | JValue.null => some old
  | _ => none

/-- Store a value in the `int32` field: a number literal goes through
`strconv.ParseInt(s, 10, 64)` and the `OverflowInt` check. -/
def storeInt32 (v : JValue) (old : Int) : Option Int :=
  match v with
  | JValue.number lit =>
    match ParseInt lit with
    | (n, none) => if -(2 ^ 31) ≤ n ∧ n < 2 ^ 31 then some n else none
    | (_, some _) => none
  | JValue.null => some old
  | _ => none

/-- One `key: value` member decoded into a `Candidate` (the loop body of
`decodeState.object`).  A key that selects no field has its value skipped. -/
def storeMember (c : Candidate) (m : List Nat × JValue) : Option Candidate :=
  match unquoteBytes m.1 with
  | none => none
  | some key =>
    match lookupField key with
    | none => some c
    | some Field.name => (storeString m.2 c.Name).map (fun x => { c with Name := x })
    | some Field.key => (storeString m.2 c.Key).map (fun x => { c with Key := x })
    | some Field.election => (storeString m.2 c.Election).map (fun x => { c with Election := x })
    | some Field.votes => (storeInt32 m.2 c.Votes).map (fun x => { c with Votes := x })

/-- All members of an object decoded in order; any error makes `Decode` fail. -/
def storeMembers : List (List Nat × JValue) → Candidate → Option Candidate
  | [], c => some c
  | m :: ms, c =>
    match storeMember c m with
    | none => none
    | some c1 => storeMembers ms c1

/-- One array element decoded into a fresh `Candidate` (`decodeState.value` on a
struct): an object fills the fields, `null` leaves the zero value, anything else
is an `UnmarshalTypeError`. -/
def decodeCandidate (v : JValue) : Option Candidate :=
  match v with
  | JValue.object ms => storeMembers ms Candidate.zero
  | JValue.null => some Candidate.zero
  | _ => none

/-- All elements of an array decoded in order. -/
def decodeElems : List JValue → Option (List Candidate)
  | [] => some []
  | v :: vs =>
    match decodeCandidate v, decodeElems vs with
    | some c, some cs => some (c :: cs)
    | _, _ => none

/-- The call `json.NewDecoder(buffer).Decode(tmpArray)` with `tmpArray` a fresh
`*[]Candidate`: `some rs` when the error is `nil` and the slice then holds `rs`,
`none` when an error is returned.  The first JSON value of the input is scanned
(a syntax error or an early end of input is an error; bytes after the value are
left unread); an array is decoded element by element, `null` leaves the slice
empty, and every other value is an `UnmarshalTypeError`.  The fuel is not a limit
of its own: a call that succeeds uses at most two nested calls of `parseValue`,
`parseElems`, `parseMembers` per byte it consumes. -/
def jsonDecode (input : List Nat) : Option (List Candidate) :=
  match parseValue (2 * input.length + 2) input with
  | none => none
  | some (JValue.array elems, _) => decodeElems elems
  | some (JValue.null, _) => some []
  | some (_, _) => none

/-! ## The node: `nodes`, `Peers`, `main`, `listenConn`, `handleConn`, `updateMongo` -/

/-- A registered peer (`type Peer struct`); the socket is the connection's identity. -/
structure Peer where
  Port : Int
  Socket : Nat
  deriving DecidableEq, Repr

/-- The process state.  `nodes`, `Peers` are the package variables; `ignore` and
`port` are the locals of `main` (own port, loop variable); `handlers` maps a
connection to the 256-byte buffer of the `handleConn` goroutine reading it;
`crashed` is set by an unrecovered panic, which ends the process.  The remaining
fields record effects on the outside world: ports visited by the loop, ports
handed to `net.Dial`, bytes handed to `conn.Write`, and the documents of each
`InsertMany` call. -/
structure Node where
  ignore : Int
  nodes : Int → Bool
  Peers : List Peer
  port : Int
  handlers : Nat → Option (List Nat)
  crashed : Bool
  visited : List Int
  dialed : List Int
  written : List (Nat × List Nat)
  inserted : List (List Candidate)

/-- The assignment `nodes[port] = true`. -/
def markKnown (nodes : Int → Bool) (port : Int) : Int → Bool :=
  fun p => if p = port then true else nodes p

/-- The statement `go handleConn(conn)`: a goroutine with a zeroed buffer. -/
def spawn (handlers : Nat → Option (List Nat)) (conn : Nat) : Nat → Option (List Nat) :=
  fun c => if c = conn then some (List.replicate 256 0) else handlers c

/-- The state of `main` when it enters its loop (lines 44-53): `PORT` is parsed
with its error discarded, and the own port is marked known. -/
def Node.start (PORT : List Nat) : Node :=
  { ignore := (Atoi PORT).1
    nodes := markKnown (fun _ => false) (Atoi PORT).1
    Peers := []
    port := 7000
    handlers := fun _ => none
    crashed := false
    visited := []
    dialed := []
    written := []
    inserted := [] }

/-- The function `updateMongo`: the records are copied one by one into `ui`, which
is handed to `InsertMany`. -/
def updateMongo (inserted : List (List Candidate)) (data : List Candidate) :
    List (List Candidate) :=
  let ui := data.foldl (fun ui candidate => ui ++ [candidate]) []
  inserted ++ [ui]

/-- One iteration of the inner loop of `main` (lines 54-70) for the current
`port`; `conn` is what `net.Dial` returns if it is called (`none` for `nil`). -/
def Node.visit (s : Node) (conn : Option Nat) : Node :=
  if s.crashed then s
  else
    let port := s.port
    let next := if port + 1 ≤ 7001 then port + 1 else 7000
    if !s.nodes port then
      match conn with
      | some c =>
        { s with
          Peers := s.Peers ++ [⟨port, c⟩]
          nodes := markKnown s.nodes port
          written := s.written ++ [(c, ascii "connect " ++ Itoa s.ignore)]
          handlers := spawn s.handlers c
          visited := s.visited ++ [port]
          dialed := s.dialed ++ [port]
          port := next }
      | none =>
        { s with visited := s.visited ++ [port], dialed := s.dialed ++ [port], port := next }
    else { s with visited := s.visited ++ [port], port := next }

/-- One iteration of the loop of `listenConn` with a successful `Accept`. -/
def Node.accept (s : Node) (conn : Nat) : Node :=
  if s.crashed then s else { s with handlers := spawn s.handlers conn }

/-- The buffer after `conn.Read(buf[0:])` delivered `data`: at most 256 bytes are
taken, and the bytes behind them keep their old contents. -/
def readInto (buf data : List Nat) : List Nat :=
  data.take 256 ++ buf.drop (data.take 256).length

/-- One iteration of the loop of `handleConn` for `conn` whose `Read` delivered
`data` with a `nil` error (lines 99-121).  `buf[8:length]` and `buf[13:length]`
panic when `length` is below the lower index. -/
def Node.read (s : Node) (conn : Nat) (data : List Nat) : Node :=
  if s.crashed then s
  else
    match s.handlers conn with
    | none => s
    | some old =>
      let length := (data.take 256).length
      let buf := readInto old data
      let s1 := { s with handlers := fun c => if c = conn then some buf else s.handlers c }
      if buf.take 7 = ascii "connect" then
        if length < 8 then { s1 with crashed := true }
        else
          match Atoi ((buf.take length).drop 8) with
          | (port, none) =>
            { s1 with nodes := markKnown s1.nodes port, Peers := s1.Peers ++ [⟨port, conn⟩] }
          | (_, some _) => s1
      else if buf.take 12 = ascii "recieve data" then
        if length < 13 then { s1 with crashed := true }
        else
          match jsonDecode ((buf.take length).drop 13) with
          | some tmpArray => { s1 with inserted := updateMongo s1.inserted tmpArray }
          | none => s1
      else s1

/-- The exit of `handleConn` when `Read` returns an error (end of stream or I/O
error): the connection is closed and the goroutine ends. -/
def Node.readErr (s : Node) (conn : Nat) : Node :=
  if s.crashed then s
  else { s with handlers := fun c => if c = conn then none else s.handlers c }

/-- What the goroutines other than `main` do in one step. -/
inductive ConnEvent where
  | accept (conn : Nat)
  | read (conn : Nat) (data : List Nat)
  | readErr (conn : Nat)

/-- One step of the process. -/
inductive Event where
  | visit (dial : Option Nat)
  | conn (e : ConnEvent)

/-- Effect of a step of `listenConn` or of a `handleConn` goroutine. -/
def Node.connStep (s : Node) : ConnEvent → Node
  | ConnEvent.accept c => s.accept c
  | ConnEvent.read c data => s.read c data
  | ConnEvent.readErr c => s.readErr c

/-- Effect of one step. -/
def Node.step (s : Node) : Event → Node
  | Event.visit dial => s.visit dial
  | Event.conn e => s.connStep e

/-- Effect of a sequence of steps. -/
def Node.run (s : Node) (es : List Event) : Node := es.foldl Node.step s

/-- Effect of a sequence of connection steps. -/
def Node.connRun (s : Node) (es : List ConnEvent) : Node := es.foldl Node.connStep s

/-- One sweep: port 7000 is visited, the other goroutines take the steps `e0`
during the pause, then port 7001 is visited and they take the steps `e1`. -/
def Node.sweep (s : Node) (d0 d1 : Option Nat) (e0 e1 : List ConnEvent) : Node :=
  (((s.visit d0).connRun e0).visit d1).connRun e1

/-! ## Auxiliary notions used in the statements -/

/-- The state after a read whose command is dropped: only the buffer changed. -/
def Node.buffered (s : Node) (conn : Nat) (old data : List Nat) : Node :=
  { s with handlers := fun c => if c = conn then some (readInto old data) else s.handlers c }

/-- The claim's notion of a decimal port number: a non-empty string of ASCII digits. -/
def decimalPortText (s : List Nat) : Bool :=
  !s.isEmpty && s.all (fun c => 48 ≤ c ∧ c ≤ 57)

/-! ## The sender of a data command -/

/-- Modelled from the spec: digit `n` of `"0123456789abcdef"`, as the sender's
encoder writes it in a `\u00XX` escape. -/
def hexDigit (n : Nat) : Nat := if n < 10 then 48 + n else 87 + n

/-- Modelled from the spec: the bytes the sender's encoder writes unescaped
(`htmlSafeSet` of `encoding/json`). -/
def htmlSafe (b : Nat) : Bool :=
  32 ≤ b ∧ b < 128 ∧ b ≠ 34 ∧ b ≠ 38 ∧ b ≠ 60 ∧ b ≠ 62 ∧ b ≠ 92

/-- Modelled from the spec: the escape the sender's encoder writes for an ASCII
byte that is not `htmlSafe`. -/
def escapeByte (b : Nat) : List Nat :=
  if b = 92 ∨ b = 34 then [92, b]
  else if b = 8 then [92, 98]
  else if b = 12 then [92, 102]
  else if b = 10 then [92, 110]
  else if b = 13 then [92, 114]
  else if b = 9 then [92, 116]
  else [92, 117, 48, 48, hexDigit (b / 16), hexDigit (b % 16)]

/-- Modelled from the spec: the repository has no code that sends a data command,
so the JSON encoding of a string is taken to be the one of Go's `json.Marshal`
(`appendString` with HTML escaping), here the bytes between the quotes: unsafe
ASCII is escaped, malformed UTF-8 becomes an escaped U+FFFD, U+2028 and U+2029 are escaped,
everything else is copied. -/
def appendString : Nat → List Nat → List Nat
  | 0, _ => []
  | fuel + 1, s =>
    match s with
    | [] => []
    | c :: rest =>
      if c < 0x80 then
        (if htmlSafe c then [c] else escapeByte c) ++ appendString fuel rest
      else
        let d := DecodeRune (c :: rest)
        if d.1 = RuneError ∧ d.2 = 1 then ascii "\\ufffd" ++ appendString fuel rest
        else if d.1 = 0x2028 ∨ d.1 = 0x2029 then
          ascii "\\u202" ++ hexDigit (d.1 % 16) :: appendString fuel ((c :: rest).drop d.2)
        else (c :: rest).take d.2 ++ appendString fuel ((c :: rest).drop d.2)

/-- Modelled from the spec: the JSON encoding of a string, quotes included. -/
def encodeString (s : List Nat) : List Nat := 34 :: appendString s.length s ++ [34]

/-- Modelled from the spec: the JSON encoding of one record, an object with the
members `name`, `key`, `election`, `votes` in the order of the struct's fields. -/
def encodeCandidate (r : Candidate) : List Nat :=
  ascii "\x7b\"name\":" ++ encodeString r.Name ++ ascii ",\"key\":" ++ encodeString r.Key ++
    ascii ",\"election\":" ++ encodeString r.Election ++ ascii ",\"votes\":" ++ Itoa r.Votes ++
    ascii "\x7d"

/-- Modelled from the spec: the encodings of the records, separated by commas. -/
def encodeElems : List Candidate → List Nat
  | [] => []
  | [r] => encodeCandidate r
  | r :: r1 :: rs => encodeCandidate r ++ 44 :: encodeElems (r1 :: rs)

/-- Modelled from the spec: the JSON encoding of an array of records
(`json.Marshal` of a non-nil `[]Candidate`; a nil slice is written `null`). -/
def Marshal (rs : List Candidate) : List Nat := 91 :: encodeElems rs ++ [93]

/-- Modelled from the spec: the data command for `rs`, the literal `recieve data `
followed by the JSON encoding of the array. -/
def dataCommand (rs : List Candidate) : List Nat := ascii "recieve data " ++ Marshal rs

/-- A record whose strings are well-formed UTF-8 and whose `Votes` is an `int32`. -/
def Candidate.wellFormed (r : Candidate) : Prop :=
  Valid r.Name = true ∧ Valid r.Key = true ∧ Valid r.Election = true ∧
    -(2 ^ 31) ≤ r.Votes ∧ r.Votes < 2 ^ 31

/-- A well-formed multi-byte rune as the head of a string. -/
def IsRune (chunk : List Nat) : Prop :=
  2 ≤ chunk.length ∧ (∀ b ∈ chunk, 0x80 ≤ b) ∧
    ∀ t, (DecodeRune (chunk ++ t)).2 = chunk.length ∧
      EncodeRune (DecodeRune (chunk ++ t)).1 = chunk

/-- How `appendString` writes a well-formed string: `Enc s t` says that `t` is a
sequence of pieces, each the JSON spelling of the matching piece of `s`. -/
inductive Enc : List Nat → List Nat → Prop where
  | nil : Enc [] []
  | plain (c : Nat) (s t : List Nat) (h : 32 ≤ c ∧ c < 128 ∧ c ≠ 34 ∧ c ≠ 92) :
      Enc s t → Enc (c :: s) (c :: t)
  | short (c e : Nat) (s t : List Nat)
      (h : (c = 34 ∧ e = 34) ∨ (c = 92 ∧ e = 92) ∨ (c = 8 ∧ e = 98) ∨ (c = 12 ∧ e = 102) ∨
        (c = 10 ∧ e = 110) ∨ (c = 13 ∧ e = 114) ∨ (c = 9 ∧ e = 116)) :
      Enc s t → Enc (c :: s) (92 :: e :: t)
  | uesc (src : List Nat) (h1 h2 h3 h4 a b c d : Nat) (s t : List Nat)
      (hh : hexVal h1 = some a ∧ hexVal h2 = some b ∧ hexVal h3 = some c ∧ hexVal h4 = some d)
      (hs : EncodeRune (((a * 16 + b) * 16 + c) * 16 + d) = src)
      (hn : ¬ (0xD800 ≤ ((a * 16 + b) * 16 + c) * 16 + d ∧
        ((a * 16 + b) * 16 + c) * 16 + d < 0xE000)) :
      Enc s t → Enc (src ++ s) (92 :: 117 :: h1 :: h2 :: h3 :: h4 :: t)
  | rune (chunk s t : List Nat) (h : IsRune chunk) : Enc s t → Enc (chunk ++ s) (chunk ++ t)

/-- The scanned form of an encoded record. -/
def candidateValue (r : Candidate) : JValue :=
  JValue.object
    [(ascii "name", JValue.string (appendString r.Name.length r.Name)),
     (ascii "key", JValue.string (appendString r.Key.length r.Key)),
     (ascii "election", JValue.string (appendString r.Election.length r.Election)),
     (ascii "votes", JValue.number (Itoa r.Votes))]

/-- Every record of the array is well formed. -/
def allWellFormed (rs : List Candidate) : Prop := ∀ r ∈ rs, r.wellFormed

/-! # Theorems -/

theorem readInto_take_le (buf data : List Nat) (k : Nat) (h : k ≤ (data.take 256).length) :
    (readInto buf data).take k = data.take k := by
  unfold readInto
  rw [List.take_append_of_le_length h, List.take_take]
  have : k ≤ 256 := by
    rw [List.length_take] at h; omega
  rw [Nat.min_eq_left this]

theorem updateMongo_eq (inserted : List (List Candidate)) (data : List Candidate) :
    updateMongo inserted data = inserted ++ [data] := by
  unfold updateMongo
  have h : ∀ (acc xs : List Candidate),
      List.foldl (fun ui candidate => ui ++ [candidate]) acc xs = acc ++ xs := by
    intro acc xs
    induction xs generalizing acc with
    | nil => simp
    | cons x xs ih => simp [ih]
  simp [h]

theorem read_connect (s : Node) (conn : Nat) (old data : List Nat)
    (hc : s.crashed = false) (hh : s.handlers conn = some old)
    (h7 : data.take 7 = ascii "connect") (h8 : 8 ≤ data.length) (h256 : data.length ≤ 256) :
    s.read conn data =
      match Atoi (data.drop 8) with
      | (port, none) =>
        { s.buffered conn old data with
          nodes := markKnown s.nodes port, Peers := s.Peers ++ [⟨port, conn⟩] }
      | (_, some _) => s.buffered conn old data := by
  have ht : data.take 256 = data := List.take_of_length_le h256
  have hb : (readInto old data).take 7 = ascii "connect" := by
    rw [readInto_take_le _ _ _ (by rw [ht]; omega), h7]
  have hd : (readInto old data).take data.length = data := by
    rw [readInto_take_le _ _ _ (by rw [ht]), List.take_of_length_le (le_refl _)]
  have h8' : ¬ data.length < 8 := by omega
  rcases ha : Atoi (data.drop 8) with ⟨port, _ | e⟩ <;>
    simp [Node.read, hc, hh, ht, hb, hd, Node.buffered, ha, h8']

theorem read_data (s : Node) (conn : Nat) (old data : List Nat)
    (hc : s.crashed = false) (hh : s.handlers conn = some old)
    (h12 : data.take 12 = ascii "recieve data") (h13 : 13 ≤ data.length)
    (h256 : data.length ≤ 256) :
    s.read conn data =
      match jsonDecode (data.drop 13) with
      | some tmpArray =>
        { s.buffered conn old data with inserted := s.inserted ++ [tmpArray] }
      | none => s.buffered conn old data := by
  have ht : data.take 256 = data := List.take_of_length_le h256
  have hb : (readInto old data).take 12 = ascii "recieve data" := by
    rw [readInto_take_le _ _ _ (by rw [ht]; omega), h12]
  have hb7 : (readInto old data).take 7 ≠ ascii "connect" := by
    have : (readInto old data).take 7 = ((readInto old data).take 12).take 7 := by
      rw [List.take_take]; rfl
    rw [this, hb]; decide
  have hd : (readInto old data).take data.length = data := by
    rw [readInto_take_le _ _ _ (by rw [ht]), List.take_of_length_le (le_refl _)]
  have h13' : ¬ data.length < 13 := by omega
  rcases ha : jsonDecode (data.drop 13) with _ | rs <;>
    simp [Node.read, hc, hh, ht, hb, hd, Node.buffered, updateMongo_eq, ha, hb7, h13']

theorem read_other (s : Node) (conn : Nat) (old data : List Nat)
    (hc : s.crashed = false) (hh : s.handlers conn = some old)
    (h7 : (readInto old data).take 7 ≠ ascii "connect")
    (h12 : (readInto old data).take 12 ≠ ascii "recieve data") :
    s.read conn data = s.buffered conn old data := by
  simp [Node.read, hc, hh, Node.buffered, h7, h12]

/-- C2 (as amended): a read of 8 to 256 bytes that begins with `connect ` and whose
remaining bytes `strconv.Atoi` rejects is dropped: the known-port map, the Peers
list, the sink and the bytes written are unchanged, the process does not panic and
the handler keeps reading from the open connection. -/
theorem malformed_handshake_dropped (s : Node) (conn : Nat) (old data : List Nat)
    (hc : s.crashed = false) (hh : s.handlers conn = some old)
    (h8 : 8 ≤ data.length) (h256 : data.length ≤ 256)
    (hp : data.take 8 = ascii "connect ")
    (hbad : (Atoi (data.drop 8)).2 ≠ none) :
    (s.read conn data).nodes = s.nodes ∧ (s.read conn data).Peers = s.Peers ∧
    (s.read conn data).inserted = s.inserted ∧ (s.read conn data).written = s.written ∧
    (s.read conn data).crashed = false ∧
    (s.read conn data).handlers conn = some (readInto old data) := by
  have h7 : data.take 7 = ascii "connect" := by
    have : data.take 7 = (data.take 8).take 7 := by rw [List.take_take]; rfl
    rw [this, hp]; decide
  rw [read_connect s conn old data hc hh h7 h8 h256]
  rcases ha : Atoi (data.drop 8) with ⟨port, _ | e⟩
  · rw [ha] at hbad; exact absurd rfl hbad
  · simp [Node.buffered, hc]

theorem malformed_handshake_dropped_witness :
    ((Node.start (ascii "7000")).accept 1).crashed = false ∧
    ((Node.start (ascii "7000")).accept 1).handlers 1 = some (List.replicate 256 0) ∧
    8 ≤ (ascii "connect 70x1").length ∧ (ascii "connect 70x1").length ≤ 256 ∧
    (ascii "connect 70x1").take 8 = ascii "connect " ∧
    (Atoi ((ascii "connect 70x1").drop 8)).2 ≠ none ∧
    (((Node.start (ascii "7000")).accept 1).read 1 (ascii "connect 70x1")).nodes
      = ((Node.start (ascii "7000")).accept 1).nodes ∧
    (((Node.start (ascii "7000")).accept 1).read 1 (ascii "connect 70x1")).Peers = [] :=
  ⟨rfl, rfl, by decide, by decide, by decide, by decide,
    (malformed_handshake_dropped ((Node.start (ascii "7000")).accept 1) 1
      (List.replicate 256 0) (ascii "connect 70x1") rfl rfl (by decide) (by decide)
      (by decide) (by decide)).1,
    (malformed_handshake_dropped ((Node.start (ascii "7000")).accept 1) 1
      (List.replicate 256 0) (ascii "connect 70x1") rfl rfl (by decide) (by decide)
      (by decide) (by decide)).2.1⟩

/-- C2 (counterexample): the read `connect +7001` begins with `connect `, its
remaining bytes `+7001` are not a non-empty string of ASCII digits, and yet the
command is not dropped: port 7001 becomes known and a Peer record is appended. -/
theorem signed_port_registered :
    8 ≤ (ascii "connect +7001").length ∧ (ascii "connect +7001").length ≤ 256 ∧
    (ascii "connect +7001").take 8 = ascii "connect " ∧
    decimalPortText ((ascii "connect +7001").drop 8) = false ∧
    ((Node.start (ascii "7000")).accept 1).nodes 7001 = false ∧
    (((Node.start (ascii "7000")).accept 1).read 1 (ascii "connect +7001")).nodes 7001 = true ∧
    ((Node.start (ascii "7000")).accept 1).Peers = [] ∧
    (((Node.start (ascii "7000")).accept 1).read 1 (ascii "connect +7001")).Peers
      = [⟨7001, 1⟩] := by
  refine ⟨by decide, by decide, by decide, by decide, by decide, ?_, by decide, ?_⟩
  · decide
  · decide

theorem registry_monotone (s : Node) (e : Event) :
    (∀ p, s.nodes p = true → (s.step e).nodes p = true) ∧ s.Peers <+: (s.step e).Peers := by
  cases e with
  | visit dial =>
    simp only [Node.step, Node.visit]
    split
    · exact ⟨fun _ h => h, List.prefix_refl _⟩
    · split
      · cases dial with
        | none => exact ⟨fun _ h => h, List.prefix_refl _⟩
        | some c =>
          refine ⟨fun p h => ?_, List.prefix_append _ _⟩
          simp [markKnown, h]
      · exact ⟨fun _ h => h, List.prefix_refl _⟩
  | conn e =>
    cases e with
    | accept c =>
      simp only [Node.step, Node.connStep, Node.accept]
      split <;> exact ⟨fun _ h => h, List.prefix_refl _⟩
    | readErr c =>
      simp only [Node.step, Node.connStep, Node.readErr]
      split <;> exact ⟨fun _ h => h, List.prefix_refl _⟩
    | read c data =>
      simp only [Node.step, Node.connStep, Node.read]
      split
      · exact ⟨fun _ h => h, List.prefix_refl _⟩
      · split
        · exact ⟨fun _ h => h, List.prefix_refl _⟩
        · split
          · split
            · exact ⟨fun _ h => h, List.prefix_refl _⟩
            · split
              · refine ⟨fun p h => ?_, List.prefix_append _ _⟩
                simp [markKnown, h]
              · exact ⟨fun _ h => h, List.prefix_refl _⟩
          · split
            · split
              · exact ⟨fun _ h => h, List.prefix_refl _⟩
              · split <;> exact ⟨fun _ h => h, List.prefix_refl _⟩
            · exact ⟨fun _ h => h, List.prefix_refl _⟩

/-- C9: every step of the node (a visit of the discovery loop with a successful
dial, a failed dial or no dial; an accepted connection; a read that carries a
handshake, a data command, an ignored or malformed command, or that panics; a
read error or peer close) keeps every port that was marked known marked known,
and the Peers list before the step is a prefix of the Peers list after it. -/
theorem step_preserves_registry (s : Node) (e : Event) :
    (∀ p, s.nodes p = true → (s.step e).nodes p = true) ∧ s.Peers <+: (s.step e).Peers :=
  registry_monotone s e

theorem take7_of_take8 (data : List Nat) (hp : data.take 8 = ascii "connect ") :
    data.take 7 = ascii "connect" := by
  have : data.take 7 = (data.take 8).take 7 := by rw [List.take_take]; rfl
  rw [this, hp]; decide

theorem take12_of_take13 (data : List Nat) (hp : data.take 13 = ascii "recieve data ") :
    data.take 12 = ascii "recieve data" := by
  have : data.take 12 = (data.take 13).take 12 := by rw [List.take_take]; rfl
  rw [this, hp]; decide

theorem length_of_take_eq (data lit : List Nat) (k : Nat) (h : data.take k = lit)
    (hl : lit.length = k) : k ≤ data.length := by
  have := congrArg List.length h
  rw [List.length_take, hl] at this
  omega

/-- C3: a read that begins with `recieve data ` and whose remaining bytes fail JSON
decoding into `[]Candidate` does not end the handler (no panic, the goroutine keeps
reading from the open connection) and `updateMongo` is not called: the list of
`InsertMany` calls is unchanged, as are the known-port map and the Peers list. -/
theorem malformed_payload_dropped (s : Node) (conn : Nat) (old data : List Nat)
    (hc : s.crashed = false) (hh : s.handlers conn = some old)
    (h256 : data.length ≤ 256)
    (hp : data.take 13 = ascii "recieve data ")
    (hbad : jsonDecode (data.drop 13) = none) :
    (s.read conn data).crashed = false ∧
    (s.read conn data).handlers conn = some (readInto old data) ∧
    (s.read conn data).inserted = s.inserted ∧
    (s.read conn data).inserted.length = s.inserted.length ∧
    (s.read conn data).nodes = s.nodes ∧ (s.read conn data).Peers = s.Peers := by
  have h13 : 13 ≤ data.length := length_of_take_eq data _ 13 hp (by decide)
  rw [read_data s conn old data hc hh (take12_of_take13 data hp) h13 h256, hbad]
  simp [Node.buffered, hc]

theorem malformed_payload_dropped_witness :
    ((Node.start (ascii "7000")).accept 1).crashed = false ∧
    ((Node.start (ascii "7000")).accept 1).handlers 1 = some (List.replicate 256 0) ∧
    (ascii "recieve data [\x7b\"name\":\"X\",\"vo").length ≤ 256 ∧
    (ascii "recieve data [\x7b\"name\":\"X\",\"vo").take 13 = ascii "recieve data " ∧
    jsonDecode ((ascii "recieve data [\x7b\"name\":\"X\",\"vo").drop 13) = none ∧
    (((Node.start (ascii "7000")).accept 1).read 1
      (ascii "recieve data [\x7b\"name\":\"X\",\"vo")).crashed = false ∧
    (((Node.start (ascii "7000")).accept 1).read 1
      (ascii "recieve data [\x7b\"name\":\"X\",\"vo")).inserted = [] :=
  ⟨rfl, rfl, by decide, by decide, by decide,
    (malformed_payload_dropped ((Node.start (ascii "7000")).accept 1) 1
      (List.replicate 256 0) (ascii "recieve data [\x7b\"name\":\"X\",\"vo") rfl rfl
      (by decide) (by decide) (by decide)).1,
    (malformed_payload_dropped ((Node.start (ascii "7000")).accept 1) 1
      (List.replicate 256 0) (ascii "recieve data [\x7b\"name\":\"X\",\"vo") rfl rfl
      (by decide) (by decide) (by decide)).2.2.1⟩

theorem read_payload (s : Node) (conn : Nat) (old payload : List Nat)
    (rs : List Candidate)
    (hc : s.crashed = false) (hh : s.handlers conn = some old)
    (h256 : (ascii "recieve data " ++ payload).length ≤ 256)
    (hok : jsonDecode payload = some rs) :
    (s.read conn (ascii "recieve data " ++ payload)).inserted = s.inserted ++ [rs] ∧
    (s.read conn (ascii "recieve data " ++ payload)).crashed = false ∧
    (s.read conn (ascii "recieve data " ++ payload)).nodes = s.nodes ∧
    (s.read conn (ascii "recieve data " ++ payload)).Peers = s.Peers := by
  have hp : (ascii "recieve data " ++ payload).take 12 = ascii "recieve data" := by
    rw [List.take_append_of_le_length (by decide)]; decide
  have h13 : 13 ≤ (ascii "recieve data " ++ payload).length := by
    rw [List.length_append]; have : (ascii "recieve data ").length = 13 := by decide
    omega
  have hd : (ascii "recieve data " ++ payload).drop 13 = payload := by
    have : (ascii "recieve data ").length = 13 := by decide
    rw [← this, List.drop_left]
  rw [read_data s conn old _ hc hh hp h13 h256, hd, hok]
  refine ⟨rfl, ?_, rfl, rfl⟩
  simp [Node.buffered, hc]

/-- C4: a read that is `recieve data ` followed by a payload that decodes to the
records `rs` makes `handleConn` call `updateMongo` exactly once, and `InsertMany`
is handed exactly `rs` (same length, same order, nothing dropped or merged).  The
empty array decodes to no records, and the one-record payload of the scenario
decodes to exactly that record. -/
theorem data_command_stored (s : Node) (conn : Nat) (old payload : List Nat)
    (rs : List Candidate)
    (hc : s.crashed = false) (hh : s.handlers conn = some old)
    (h256 : (ascii "recieve data " ++ payload).length ≤ 256)
    (hok : jsonDecode payload = some rs) :
    (s.read conn (ascii "recieve data " ++ payload)).inserted = s.inserted ++ [rs] ∧
    (s.read conn (ascii "recieve data " ++ payload)).crashed = false ∧
    (s.read conn (ascii "recieve data " ++ payload)).nodes = s.nodes ∧
    (s.read conn (ascii "recieve data " ++ payload)).Peers = s.Peers ∧
    jsonDecode (ascii "[]") = some [] ∧
    jsonDecode (ascii "[\x7b\"name\":\"X\",\"key\":\"k1\",\"election\":\"e1\",\"votes\":3\x7d]")
      = some [⟨ascii "X", ascii "k1", ascii "e1", 3⟩] := by
  have h := read_payload s conn old payload rs hc hh h256 hok
  exact ⟨h.1, h.2.1, h.2.2.1, h.2.2.2, by decide, by decide⟩

theorem data_command_stored_witness :
    ((Node.start (ascii "7000")).accept 1).crashed = false ∧
    ((Node.start (ascii "7000")).accept 1).handlers 1 = some (List.replicate 256 0) ∧
    (ascii "recieve data " ++
      ascii "[\x7b\"name\":\"X\",\"key\":\"k1\",\"election\":\"e1\",\"votes\":3\x7d]").length ≤ 256 ∧
    jsonDecode (ascii "[\x7b\"name\":\"X\",\"key\":\"k1\",\"election\":\"e1\",\"votes\":3\x7d]")
      = some [⟨ascii "X", ascii "k1", ascii "e1", 3⟩] ∧
    (((Node.start (ascii "7000")).accept 1).read 1 (ascii "recieve data " ++
      ascii "[\x7b\"name\":\"X\",\"key\":\"k1\",\"election\":\"e1\",\"votes\":3\x7d]")).inserted
      = [[⟨ascii "X", ascii "k1", ascii "e1", 3⟩]] :=
  ⟨rfl, rfl, by decide, by decide,
    (data_command_stored ((Node.start (ascii "7000")).accept 1) 1 (List.replicate 256 0)
      (ascii "[\x7b\"name\":\"X\",\"key\":\"k1\",\"election\":\"e1\",\"votes\":3\x7d]")
      [⟨ascii "X", ascii "k1", ascii "e1", 3⟩] rfl rfl (by decide) (by decide)).1⟩

/-- C10: when port `P` is already marked known, a handshake announcing `P` leaves
the known-port map unchanged and appends exactly one Peer record, whose port is
`P`, to the Peers list. -/
theorem known_port_handshake (s : Node) (conn : Nat) (old data : List Nat) (P : Int)
    (hc : s.crashed = false) (hh : s.handlers conn = some old)
    (h256 : data.length ≤ 256)
    (hp : data.take 8 = ascii "connect ")
    (ha : Atoi (data.drop 8) = (P, none))
    (hk : s.nodes P = true) :
    (s.read conn data).nodes = s.nodes ∧
    (s.read conn data).Peers = s.Peers ++ [⟨P, conn⟩] := by
  have h8 : 8 ≤ data.length := length_of_take_eq data _ 8 hp (by decide)
  rw [read_connect s conn old data hc hh (take7_of_take8 data hp) h8 h256, ha]
  refine ⟨?_, rfl⟩
  funext p
  simp only [markKnown, Node.buffered]
  split
  · next h => rw [h, hk]
  · rfl

theorem known_port_handshake_witness :
    (((Node.start (ascii "7000")).accept 1).read 1 (ascii "connect 7001")).crashed = false ∧
    (((Node.start (ascii "7000")).accept 1).read 1 (ascii "connect 7001")).handlers 1
      = some (readInto (List.replicate 256 0) (ascii "connect 7001")) ∧
    (ascii "connect 7001").length ≤ 256 ∧
    (ascii "connect 7001").take 8 = ascii "connect " ∧
    Atoi ((ascii "connect 7001").drop 8) = (7001, none) ∧
    (((Node.start (ascii "7000")).accept 1).read 1 (ascii "connect 7001")).nodes 7001 = true ∧
    ((((Node.start (ascii "7000")).accept 1).read 1 (ascii "connect 7001")).read 1
      (ascii "connect 7001")).Peers = [⟨7001, 1⟩, ⟨7001, 1⟩] :=
  ⟨by decide, rfl, by decide, by decide, by decide, by decide,
    (known_port_handshake
      (((Node.start (ascii "7000")).accept 1).read 1 (ascii "connect 7001")) 1
      (readInto (List.replicate 256 0) (ascii "connect 7001")) (ascii "connect 7001") 7001
      (by decide) rfl (by decide) (by decide) (by decide) (by decide)).2.trans
      (by decide)⟩

theorem read_frame (s : Node) (c : Nat) (data : List Nat) :
    (s.read c data).ignore = s.ignore ∧ (s.read c data).port = s.port ∧
    (s.read c data).visited = s.visited ∧ (s.read c data).dialed = s.dialed ∧
    (s.read c data).written = s.written ∧
    (s.crashed = true → (s.read c data) = s) := by
  simp only [Node.read]
  repeat' split
  all_goals simp_all

theorem connStep_frame (s : Node) (e : ConnEvent) :
    (s.connStep e).ignore = s.ignore ∧ (s.connStep e).port = s.port ∧
    (s.connStep e).visited = s.visited ∧ (s.connStep e).dialed = s.dialed ∧
    (s.connStep e).written = s.written ∧
    (s.crashed = true → (s.connStep e) = s) := by
  cases e with
  | accept c =>
    simp only [Node.connStep, Node.accept]; split <;> simp_all
  | readErr c =>
    simp only [Node.connStep, Node.readErr]; split <;> simp_all
  | read c data => exact read_frame s c data

theorem connRun_frame (s : Node) (es : List ConnEvent) :
    (s.connRun es).ignore = s.ignore ∧ (s.connRun es).port = s.port ∧
    (s.connRun es).visited = s.visited ∧ (s.connRun es).dialed = s.dialed ∧
    (s.connRun es).written = s.written ∧
    (s.crashed = true → (s.connRun es) = s) := by
  induction es generalizing s with
  | nil => simp [Node.connRun]
  | cons e es ih =>
    have h1 := connStep_frame s e
    have h2 := ih (s.connStep e)
    simp only [Node.connRun, List.foldl_cons] at h2 ⊢
    refine ⟨h2.1.trans h1.1, h2.2.1.trans h1.2.1, h2.2.2.1.trans h1.2.2.1,
      h2.2.2.2.1.trans h1.2.2.2.1, h2.2.2.2.2.1.trans h1.2.2.2.2.1, fun hc => ?_⟩
    have := h1.2.2.2.2.2 hc
    rw [this] at h2 ⊢
    exact h2.2.2.2.2.2 hc

theorem connRun_known (s : Node) (es : List ConnEvent) (p : Int) (h : s.nodes p = true) :
    (s.connRun es).nodes p = true := by
  induction es generalizing s with
  | nil => simpa [Node.connRun] using h
  | cons e es ih =>
    simp only [Node.connRun, List.foldl_cons]
    exact ih _ ((registry_monotone s (Event.conn e)).1 p h)

theorem visit_running (s : Node) (d : Option Nat) (hc : s.crashed = false) :
    (s.visit d).visited = s.visited ++ [s.port] ∧
    (s.visit d).dialed = s.dialed ++ (if s.nodes s.port = true then [] else [s.port]) ∧
    (s.visit d).port = (if s.port + 1 ≤ 7001 then s.port + 1 else 7000) ∧
    (s.visit d).ignore = s.ignore := by
  simp only [Node.visit, hc]
  cases hk : s.nodes s.port <;> cases d <;> simp

theorem visit_crashed (s : Node) (d : Option Nat) (hc : s.crashed = true) : s.visit d = s := by
  simp [Node.visit, hc]

theorem visit_effect (t : Node) (d : Option Nat) :
    (t.visit d).visited = t.visited ++ (if t.crashed = true then [] else [t.port]) ∧
    (t.visit d).dialed = t.dialed ++
      (if t.crashed = true ∨ t.nodes t.port = true then [] else [t.port]) := by
  cases hc : t.crashed
  · have h := visit_running t d hc
    refine ⟨by simpa using h.1, ?_⟩
    rw [h.2.1]
    by_cases hk : t.nodes t.port = true <;> simp [hk]
  · rw [visit_crashed t d hc]; simp

theorem sweep_shape (s : Node) (d0 d1 : Option Nat) (e0 e1 : List ConnEvent)
    (hp : s.port = 7000) :
    (s.sweep d0 d1 e0 e1).visited = s.visited ++
      ((if s.crashed = true then [] else [7000]) ++
       (if ((s.visit d0).connRun e0).crashed = true then [] else [7001])) ∧
    (s.sweep d0 d1 e0 e1).dialed = s.dialed ++
      ((if s.crashed = true ∨ s.nodes 7000 = true then [] else [7000]) ++
       (if ((s.visit d0).connRun e0).crashed = true ∨
           ((s.visit d0).connRun e0).nodes 7001 = true then [] else [7001])) ∧
    (((s.visit d0).connRun e0).crashed = false → s.crashed = false) := by
  have f0 := connRun_frame (s.visit d0) e0
  have f1 := connRun_frame (((s.visit d0).connRun e0).visit d1) e1
  have v0 := visit_effect s d0
  have v1 := visit_effect ((s.visit d0).connRun e0) d1
  -- a process that had crashed before the sweep is still crashed in the pause
  have hmono : ((s.visit d0).connRun e0).crashed = false → s.crashed = false := by
    intro hm
    by_contra h
    have h' : s.crashed = true := by simpa using h
    have e1' : s.visit d0 = s := visit_crashed s d0 h'
    have e2' : (s.visit d0).connRun e0 = s.visit d0 := f0.2.2.2.2.2 (by rw [e1']; exact h')
    rw [e2', e1', h'] at hm
    exact absurd hm (by simp)
  -- the loop variable in the pause, when the process is running
  have hport : ((s.visit d0).connRun e0).crashed = false →
      ((s.visit d0).connRun e0).port = 7001 := by
    intro hm
    rw [f0.2.1, (visit_running s d0 (hmono hm)).2.2.1, hp]; rfl
  refine ⟨?_, ?_, hmono⟩
  · simp only [Node.sweep]
    rw [f1.2.2.1, v1.1, f0.2.2.1, v0.1, hp, List.append_assoc]
    congr 2
    cases hm : ((s.visit d0).connRun e0).crashed
    · rw [hport hm]
    · simp
  · simp only [Node.sweep]
    rw [f1.2.2.2.1, v1.2, f0.2.2.2.1, v0.2, hp, List.append_assoc]
    congr 2
    cases hm : ((s.visit d0).connRun e0).crashed
    · rw [hport hm]
    · simp

/-- C7 (as amended): in one sweep, starting with the loop at port 7000, the loop
visits 7000 and then 7001, each at most once, and each exactly once when the
process is still running at the moment 7001 is visited.  Whether or not it is, a
port is handed to `net.Dial` only at its visit and only if it is not marked known
at that moment, so each port is dialed at most once, and a port that is already
marked known when the sweep starts, or, for 7001, that a handshake received during
the pause has marked known by the time it is visited, is dialed zero times. -/
theorem sweep_dials (s : Node) (d0 d1 : Option Nat) (e0 e1 : List ConnEvent)
    (hp : s.port = 7000) :
    (((s.visit d0).connRun e0).crashed = false →
      (s.sweep d0 d1 e0 e1).visited = s.visited ++ [7000, 7001]) ∧
    (∀ p, ((s.sweep d0 d1 e0 e1).visited.drop s.visited.length).count p ≤ 1) ∧
    (s.sweep d0 d1 e0 e1).dialed = s.dialed ++
      ((if s.crashed = true ∨ s.nodes 7000 = true then [] else [7000]) ++
       (if ((s.visit d0).connRun e0).crashed = true ∨
           ((s.visit d0).connRun e0).nodes 7001 = true then [] else [7001])) ∧
    (∀ p, ((s.sweep d0 d1 e0 e1).dialed.drop s.dialed.length).count p ≤ 1) ∧
    (∀ p, s.nodes p = true →
      ((s.sweep d0 d1 e0 e1).dialed.drop s.dialed.length).count p = 0) ∧
    (((s.visit d0).connRun e0).nodes 7001 = true →
      ((s.sweep d0 d1 e0 e1).dialed.drop s.dialed.length).count 7001 = 0) := by
  obtain ⟨hv, hd, hmono⟩ := sweep_shape s d0 d1 e0 e1 hp
  refine ⟨fun hm => ?_, fun p => ?_, hd, fun p => ?_, fun p hk => ?_, fun hk => ?_⟩
  · rw [hv, hmono hm, hm]; simp
  · rw [hv, List.drop_left]
    cases s.crashed <;> cases ((s.visit d0).connRun e0).crashed <;>
      simp only [if_true, if_false, List.nil_append, List.append_nil, List.count_nil,
        List.count_cons, List.cons_append, Bool.false_eq_true, beq_iff_eq] <;>
      (try split_ifs) <;> omega
  · rw [hd, List.drop_left]
    by_cases h0 : s.crashed = true ∨ s.nodes 7000 = true <;>
      by_cases h1 : ((s.visit d0).connRun e0).crashed = true ∨
        ((s.visit d0).connRun e0).nodes 7001 = true <;>
      simp only [h0, h1, if_true, if_false, List.nil_append, List.append_nil, List.count_nil,
        List.count_cons, List.cons_append, beq_iff_eq] <;>
      (try split_ifs) <;> omega
  · rw [hd, List.drop_left]
    have hk1 : ((s.visit d0).connRun e0).nodes p = true :=
      connRun_known _ e0 p ((registry_monotone s (Event.visit d0)).1 p hk)
    by_cases h0 : s.crashed = true ∨ s.nodes 7000 = true <;>
      by_cases h1 : ((s.visit d0).connRun e0).crashed = true ∨
        ((s.visit d0).connRun e0).nodes 7001 = true <;>
      simp only [h0, h1, if_true, if_false, List.nil_append, List.append_nil, List.count_nil,
        List.count_cons, List.cons_append, beq_iff_eq]
    · split_ifs with a
      · subst a; exact absurd (Or.inr hk1) h1
      · rfl
    · split_ifs with a
      · subst a; exact absurd (Or.inr hk) h0
      · rfl
    · split_ifs with a b b
      · subst a; exact absurd (Or.inr hk1) h1
      · subst a; exact absurd (Or.inr hk1) h1
      · subst b; exact absurd (Or.inr hk) h0
      · rfl
  · rw [hd, List.drop_left]
    have h1 : ((s.visit d0).connRun e0).crashed = true ∨
        ((s.visit d0).connRun e0).nodes 7001 = true := Or.inr hk
    by_cases h0 : s.crashed = true ∨ s.nodes 7000 = true <;>
      simp [h0, h1]

theorem sweep_dials_witness :
    (Node.start (ascii "7000")).port = 7000 ∧
    ((Node.start (ascii "7000")).sweep none none
      [ConnEvent.accept 5, ConnEvent.read 5 (ascii "connect 7001")] []).visited
      = [7000, 7001] ∧
    ((Node.start (ascii "7000")).sweep none none
      [ConnEvent.accept 5, ConnEvent.read 5 (ascii "connect 7001")] []).dialed = [] :=
  ⟨rfl,
    (sweep_dials (Node.start (ascii "7000")) none none
      [ConnEvent.accept 5, ConnEvent.read 5 (ascii "connect 7001")] [] rfl).1 (by decide),
    (sweep_dials (Node.start (ascii "7000")) none none
      [ConnEvent.accept 5, ConnEvent.read 5 (ascii "connect 7001")] [] rfl).2.2.1.trans
      (by decide)⟩

/-- C7 (counterexample): a sweep in which port 7001 is not visited.  The process is
running with the loop at port 7000; during the pause after the visit of 7000 a
connection is accepted and its handler reads the 7 bytes `connect`, which panics
and ends the process, so the loop never reaches 7001. -/
theorem sweep_cut_short :
    (Node.start (ascii "7000")).crashed = false ∧
    (Node.start (ascii "7000")).port = 7000 ∧
    ((Node.start (ascii "7000")).sweep none none
      [ConnEvent.accept 5, ConnEvent.read 5 (ascii "connect")] []).visited = [7000] ∧
    List.count 7001 ((Node.start (ascii "7000")).sweep none none
      [ConnEvent.accept 5, ConnEvent.read 5 (ascii "connect")] []).visited = 0 := by
  decide

theorem step_frame (s : Node) (e : Event) (h1 : s.nodes s.ignore = true)
    (h2 : s.ignore ∉ s.dialed) :
    (s.step e).ignore = s.ignore ∧ (s.step e).nodes s.ignore = true ∧
    s.ignore ∉ (s.step e).dialed := by
  have hk := (registry_monotone s e).1 s.ignore h1
  cases e with
  | conn e =>
    have f := connStep_frame s e
    simp only [Node.step] at hk ⊢
    exact ⟨f.1, hk, by rw [f.2.2.2.1]; exact h2⟩
  | visit d =>
    simp only [Node.step] at hk ⊢
    refine ⟨?_, hk, ?_⟩
    · cases hc : s.crashed
      · exact (visit_running s d hc).2.2.2
      · rw [visit_crashed s d hc]
    · cases hc : s.crashed
      · rw [(visit_running s d hc).2.1]
        by_cases hp : s.nodes s.port = true
        · simpa [hp] using h2
        · rw [if_neg hp]
          simp only [List.mem_append, List.mem_singleton, not_or]
          refine ⟨h2, fun h => hp ?_⟩
          rw [← h]; exact h1
      · rw [visit_crashed s d hc]; exact h2

theorem run_frame (s : Node) (es : List Event) (h1 : s.nodes s.ignore = true)
    (h2 : s.ignore ∉ s.dialed) :
    (s.run es).ignore = s.ignore ∧ (s.run es).nodes s.ignore = true ∧
    s.ignore ∉ (s.run es).dialed := by
  induction es generalizing s with
  | nil => exact ⟨rfl, h1, h2⟩
  | cons e es ih =>
    have f := step_frame s e h1 h2
    have g := ih (s.step e) (by rw [f.1]; exact f.2.1) (by rw [f.1]; exact f.2.2)
    simp only [Node.run, List.foldl_cons] at g ⊢
    rw [f.1] at g
    exact g

/-- C8: in every state reachable from startup by any sequence of steps, the own
port (the value parsed from `PORT` and marked known before the loop starts) is
still marked known, and it has never been handed to `net.Dial`. -/
theorem own_port_never_dialed (PORT : List Nat) (es : List Event) :
    (Node.start PORT).ignore = (Atoi PORT).1 ∧
    ((Node.start PORT).run es).ignore = (Atoi PORT).1 ∧
    ((Node.start PORT).run es).nodes (Atoi PORT).1 = true ∧
    (Atoi PORT).1 ∉ ((Node.start PORT).run es).dialed := by
  have h := run_frame (Node.start PORT) es (by simp [Node.start, markKnown])
    (by simp [Node.start])
  exact ⟨rfl, h.1, h.2.1, h.2.2⟩

/-- C5 (as amended): a read after which the buffer begins with neither `connect`
(its first 7 bytes) nor `recieve data` (its first 12 bytes) is ignored: the
known-port map, the Peers list and the sink are untouched, the process does not
panic and the handler keeps reading from the open connection. -/
theorem unrecognised_read_ignored (s : Node) (conn : Nat) (old data : List Nat)
    (hc : s.crashed = false) (hh : s.handlers conn = some old)
    (h7 : (readInto old data).take 7 ≠ ascii "connect")
    (h12 : (readInto old data).take 12 ≠ ascii "recieve data") :
    (s.read conn data).nodes = s.nodes ∧ (s.read conn data).Peers = s.Peers ∧
    (s.read conn data).inserted = s.inserted ∧ (s.read conn data).crashed = false ∧
    (s.read conn data).handlers conn = some (readInto old data) := by
  rw [read_other s conn old data hc hh h7 h12]
  simp [Node.buffered, hc]

theorem unrecognised_read_ignored_witness :
    ((Node.start (ascii "7000")).accept 1).crashed = false ∧
    ((Node.start (ascii "7000")).accept 1).handlers 1 = some (List.replicate 256 0) ∧
    (readInto (List.replicate 256 0) (ascii "hello 7001")).take 7 ≠ ascii "connect" ∧
    (readInto (List.replicate 256 0) (ascii "hello 7001")).take 12 ≠ ascii "recieve data" ∧
    (((Node.start (ascii "7000")).accept 1).read 1 (ascii "hello 7001")).Peers = [] ∧
    (((Node.start (ascii "7000")).accept 1).read 1 (ascii "hello 7001")).inserted = [] :=
  ⟨rfl, rfl, by decide, by decide,
    (unrecognised_read_ignored ((Node.start (ascii "7000")).accept 1) 1
      (List.replicate 256 0) (ascii "hello 7001") rfl rfl (by decide) (by decide)).2.1,
    (unrecognised_read_ignored ((Node.start (ascii "7000")).accept 1) 1
      (List.replicate 256 0) (ascii "hello 7001") rfl rfl (by decide) (by decide)).2.2.1⟩

/-- C5 (counterexample): the 12 bytes `connect:7001` begin with neither `connect `
nor `recieve data `, and yet the read is not ignored: port 7001 becomes known and
a Peer record is appended. -/
theorem unspaced_connect_registered :
    1 ≤ (ascii "connect:7001").length ∧ (ascii "connect:7001").length ≤ 256 ∧
    (ascii "connect ").isPrefixOf (ascii "connect:7001") = false ∧
    (ascii "recieve data ").isPrefixOf (ascii "connect:7001") = false ∧
    ((Node.start (ascii "7000")).accept 1).nodes 7001 = false ∧
    (((Node.start (ascii "7000")).accept 1).read 1 (ascii "connect:7001")).nodes 7001 = true ∧
    ((Node.start (ascii "7000")).accept 1).Peers = [] ∧
    (((Node.start (ascii "7000")).accept 1).read 1 (ascii "connect:7001")).Peers
      = [⟨7001, 1⟩] := by
  decide

theorem parseUintLoop_cons (c : Nat) (cs : List Nat) (n : Nat) :
    parseUintLoop (c :: cs) n =
      if 48 ≤ c ∧ c ≤ 57 then
        if n ≥ maxUint64 / 10 + 1 then (maxUint64, some NumError.ErrRange)
        else if n * 10 + (c - 48) > maxUint64 then (maxUint64, some NumError.ErrRange)
        else parseUintLoop cs (n * 10 + (c - 48))
      else (0, some NumError.ErrSyntax) := rfl

theorem parse_formatDigits (u : Nat) : ∀ (fuel : Nat) (acc : List Nat), u < fuel →
    u ≤ maxUint64 →
    parseUintLoop (formatDigits fuel u acc) 0 = parseUintLoop acc u := by
  induction u using Nat.strong_induction_on with
  | _ u ih =>
    intro fuel acc hf hu
    have hm : maxUint64 = 18446744073709551615 := rfl
    cases fuel with
    | zero => omega
    | succ f =>
      unfold formatDigits
      by_cases h10 : u < 10
      · rw [if_pos h10]
        rw [parseUintLoop_cons]
        have h1 : 48 ≤ 48 + u ∧ 48 + u ≤ 57 := by omega
        have h2 : ¬ (0 ≥ maxUint64 / 10 + 1) := by decide
        have e : 0 * 10 + (48 + u - 48) = u := by
          rw [Nat.add_sub_cancel_left]; omega
        rw [if_pos h1, if_neg h2, e, if_neg (by omega)]
      · rw [if_neg h10]
        rw [ih (u / 10) (by omega) f _ (by omega) (by omega)]
        rw [parseUintLoop_cons]
        have h1 : 48 ≤ 48 + u % 10 ∧ 48 + u % 10 ≤ 57 := by omega
        have h2 : ¬ (u / 10 ≥ maxUint64 / 10 + 1) := by omega
        have e : u / 10 * 10 + (48 + u % 10 - 48) = u := by
          rw [Nat.add_sub_cancel_left]; omega
        rw [if_pos h1, if_neg h2, e, if_neg (by omega)]

theorem formatDigits_head (u : Nat) : ∀ (fuel : Nat) (acc : List Nat), u < fuel →
    ∃ d ds, formatDigits fuel u acc = d :: ds ∧ 48 ≤ d ∧ d ≤ 57 := by
  induction u using Nat.strong_induction_on with
  | _ u ih =>
    intro fuel acc hf
    cases fuel with
    | zero => omega
    | succ f =>
      unfold formatDigits
      by_cases h10 : u < 10
      · rw [if_pos h10]; exact ⟨48 + u, acc, rfl, by omega, by omega⟩
      · rw [if_neg h10]; exact ih (u / 10) (by omega) f _ (by omega)

theorem formatDigits_length (k : Nat) : ∀ (u fuel : Nat) (acc : List Nat), u < 10 ^ (k + 1) →
    (formatDigits fuel u acc).length ≤ acc.length + (k + 1) := by
  induction k with
  | zero =>
    intro u fuel acc hu
    cases fuel with
    | zero => simp [formatDigits]
    | succ f =>
      unfold formatDigits
      rw [if_pos (by simpa using hu)]; simp
  | succ k ih =>
    intro u fuel acc hu
    cases fuel with
    | zero => simp [formatDigits]
    | succ f =>
      unfold formatDigits
      by_cases h10 : u < 10
      · rw [if_pos h10]; simp
      · rw [if_neg h10]
        have : u / 10 < 10 ^ (k + 1) := by
          rw [Nat.div_lt_iff_lt_mul (by decide)]
          calc u < 10 ^ (k + 1 + 1) := hu
            _ = 10 ^ (k + 1) * 10 := by ring
        have h := ih (u / 10) f ((48 + u % 10) :: acc) this
        simp only [List.length_cons] at h
        omega

theorem FormatUint_length (u : Nat) (hu : u ≤ maxUint64) : (FormatUint u).length ≤ 20 := by
  have := formatDigits_length 19 u (u + 1) [] (by simp only [maxUint64] at hu; omega)
  simpa [FormatUint] using this

theorem ParseUint_FormatUint (u : Nat) (hu : u ≤ maxUint64) :
    ParseUint (FormatUint u) = (u, none) := by
  obtain ⟨d, ds, hd, _, _⟩ := formatDigits_head u (u + 1) [] (by omega)
  have h := parse_formatDigits u (u + 1) [] (by omega) hu
  unfold FormatUint at *
  rw [hd] at h
  simp only [ParseUint, hd, h, parseUintLoop]

theorem Itoa_length (i : Int) (h1 : -(2 ^ 63) ≤ i) (h2 : i < 2 ^ 63) : (Itoa i).length ≤ 21 := by
  unfold Itoa
  split
  · have := FormatUint_length (-i).toNat (by simp only [maxUint64]; omega)
    simp only [List.length_cons]; omega
  · have := FormatUint_length i.toNat (by simp only [maxUint64]; omega)
    omega

theorem Atoi_Itoa (i : Int) (h1 : -(2 ^ 63) ≤ i) (h2 : i < 2 ^ 63) :
    Atoi (Itoa i) = (i, none) := by
  unfold Atoi Itoa
  by_cases hneg : i < 0
  · rw [if_pos hneg]
    have hp := ParseUint_FormatUint (-i).toNat (by simp only [maxUint64]; omega)
    have h3 : ¬ ((-i).toNat > 2 ^ 63) := by omega
    have h4 : (-((-i).toNat : Int)) = i := by omega
    simp only [ParseInt, or_true, if_true, hp]
    simp only [decide_True, Bool.not_true, Bool.false_eq_true, false_and, if_false, true_and,
      if_neg h3, h4, if_true]
  · rw [if_neg hneg]
    obtain ⟨d, ds, hd, hd1, hd2⟩ := formatDigits_head i.toNat (i.toNat + 1) [] (by omega)
    have hp := ParseUint_FormatUint i.toNat (by simp only [maxUint64]; omega)
    unfold FormatUint at hp ⊢
    rw [hd] at hp ⊢
    have e1 : ¬ (d = 43) := by omega
    have e2 : ¬ (d = 45) := by omega
    have h3 : ¬ (2 ^ 63 ≤ i.toNat) := by omega
    have h4 : ((i.toNat : Nat) : Int) = i := by omega
    simp only [ParseInt, e1, e2, or_self, or_false, if_false, hp]
    simp only [decide_False, Bool.not_false, true_and, Bool.false_eq_true, false_and, if_false,
      ge_iff_le, if_neg h3, h4]

/-- C1: node `A` (own port `a = A.ignore`) visits a port `b = A.port` that it does
not yet know and the dial succeeds with connection `cA`; node `B` has a handler
reading connection `cB` and receives, in a single read, the handshake `A` wrote
(`connect ` followed by `strconv.Itoa(a)`).  Afterwards `A` marks `b` known, `B`
marks `a` known, and each Peers list has grown by exactly one record: port `b` on
`A`, port `a` on `B`. -/
theorem handshake_registers_both (A B : Node) (cA cB : Nat) (old : List Nat)
    (hA : A.crashed = false) (hk : A.nodes A.port = false)
    (ha : -(2 ^ 63) ≤ A.ignore ∧ A.ignore < 2 ^ 63)
    (hB : B.crashed = false) (hh : B.handlers cB = some old) :
    (A.visit (some cA)).dialed = A.dialed ++ [A.port] ∧
    (A.visit (some cA)).written = A.written ++ [(cA, ascii "connect " ++ Itoa A.ignore)] ∧
    (A.visit (some cA)).nodes A.port = true ∧
    (A.visit (some cA)).Peers = A.Peers ++ [⟨A.port, cA⟩] ∧
    (B.read cB (ascii "connect " ++ Itoa A.ignore)).nodes A.ignore = true ∧
    (B.read cB (ascii "connect " ++ Itoa A.ignore)).Peers = B.Peers ++ [⟨A.ignore, cB⟩] := by
  have hlen := Itoa_length A.ignore ha.1 ha.2
  have h8 : (ascii "connect ").length = 8 := by decide
  have h7 : (ascii "connect " ++ Itoa A.ignore).take 7 = ascii "connect" := by
    rw [List.take_append_of_le_length (by decide)]; decide
  have hd : (ascii "connect " ++ Itoa A.ignore).drop 8 = Itoa A.ignore := by
    rw [← h8, List.drop_left]
  have hr := read_connect B cB old (ascii "connect " ++ Itoa A.ignore) hB hh h7
    (by rw [List.length_append, h8]; omega) (by rw [List.length_append, h8]; omega)
  rw [hd, Atoi_Itoa A.ignore ha.1 ha.2] at hr
  rw [hr]
  refine ⟨?_, ?_, ?_, ?_, ?_, rfl⟩
  · simp [Node.visit, hA, hk]
  · simp [Node.visit, hA, hk]
  · simp [Node.visit, hA, hk, markKnown]
  · simp [Node.visit, hA, hk]
  · simp [markKnown]

theorem handshake_registers_both_witness :
    (((Node.start (ascii "7000")).visit none).crashed = false ∧
     ((Node.start (ascii "7000")).visit none).nodes
        ((Node.start (ascii "7000")).visit none).port = false ∧
     (-(2 ^ 63) ≤ ((Node.start (ascii "7000")).visit none).ignore ∧
      ((Node.start (ascii "7000")).visit none).ignore < 2 ^ 63) ∧
     ((Node.start (ascii "7001")).accept 4).crashed = false ∧
     ((Node.start (ascii "7001")).accept 4).handlers 4 = some (List.replicate 256 0)) ∧
    (((Node.start (ascii "7000")).visit none).visit (some 3)).nodes 7001 = true ∧
    (((Node.start (ascii "7000")).visit none).visit (some 3)).Peers = [⟨7001, 3⟩] ∧
    (((Node.start (ascii "7001")).accept 4).read 4 (ascii "connect 7000")).nodes 7000 = true ∧
    (((Node.start (ascii "7001")).accept 4).read 4 (ascii "connect 7000")).Peers
      = [⟨7000, 4⟩] :=
  ⟨⟨rfl, by decide, by decide, rfl, rfl⟩,
    (handshake_registers_both ((Node.start (ascii "7000")).visit none)
      ((Node.start (ascii "7001")).accept 4) 3 4 (List.replicate 256 0)
      rfl (by decide) (by decide) rfl rfl).2.2.1,
    (handshake_registers_both ((Node.start (ascii "7000")).visit none)
      ((Node.start (ascii "7001")).accept 4) 3 4 (List.replicate 256 0)
      rfl (by decide) (by decide) rfl rfl).2.2.2.1,
    (handshake_registers_both ((Node.start (ascii "7000")).visit none)
      ((Node.start (ascii "7001")).accept 4) 3 4 (List.replicate 256 0)
      rfl (by decide) (by decide) rfl rfl).2.2.2.2.1,
    (handshake_registers_both ((Node.start (ascii "7000")).visit none)
      ((Node.start (ascii "7001")).accept 4) 3 4 (List.replicate 256 0)
      rfl (by decide) (by decide) rfl rfl).2.2.2.2.2⟩

theorem DecodeRune_two (c b1 : Nat) (t : List Nat) (h1 : 0xC2 ≤ c) (h2 : c ≤ 0xDF)
    (h3 : 0x80 ≤ b1) (h4 : b1 ≤ 0xBF) :
    DecodeRune (c :: b1 :: t) = (c % 32 * 64 + b1 % 64, 2) := by
  have e1 : ¬ c < 0x80 := by omega
  have e2 : ¬ (c < 0xC2 ∨ 0xF4 < c) := by omega
  have e3 : c < 0xE0 := by omega
  have e4 : ¬ c = 0xE0 := by omega
  have e5 : ¬ c = 0xF0 := by omega
  have e6 : ¬ c = 0xED := by omega
  have e7 : ¬ c = 0xF4 := by omega
  have e8 : ¬ (b1 < 0x80 ∨ 0xBF < b1) := by omega
  simp [DecodeRune, e1, e2, e3, e4, e5, e6, e7, e8]

theorem DecodeRune_three (c b1 b2 : Nat) (t : List Nat) (h1 : 0xE0 ≤ c) (h2 : c ≤ 0xEF)
    (h3 : 0x80 ≤ b1) (h4 : b1 ≤ 0xBF) (h5 : c = 0xE0 → 0xA0 ≤ b1) (h6 : c = 0xED → b1 ≤ 0x9F)
    (h7 : 0x80 ≤ b2) (h8 : b2 ≤ 0xBF) :
    DecodeRune (c :: b1 :: b2 :: t) = (c % 16 * 4096 + b1 % 64 * 64 + b2 % 64, 3) := by
  have e1 : ¬ c < 0x80 := by omega
  have e2 : ¬ (c < 0xC2 ∨ 0xF4 < c) := by omega
  have e3 : ¬ c < 0xE0 := by omega
  have e3' : c < 0xF0 := by omega
  have e5 : ¬ c = 0xF0 := by omega
  have e7 : ¬ c = 0xF4 := by omega
  have e8 : ¬ (b2 < 0x80 ∨ 0xBF < b2) := by omega
  by_cases a : c = 0xE0
  · subst a
    have e9 : ¬ (b1 < 0xA0 ∨ 0xBF < b1) := by omega
    simp [DecodeRune, e8, e9]
  · by_cases b : c = 0xED
    · subst b
      have e9 : ¬ (b1 < 0x80 ∨ 0x9F < b1) := by omega
      simp [DecodeRune, e8, e9]
    · have e9 : ¬ (b1 < 0x80 ∨ 0xBF < b1) := by omega
      simp [DecodeRune, e1, e2, e3, e3', e5, e7, e8, e9, a, b]

theorem DecodeRune_four (c b1 b2 b3 : Nat) (t : List Nat) (h1 : 0xF0 ≤ c) (h2 : c ≤ 0xF4)
    (h3 : 0x80 ≤ b1) (h4 : b1 ≤ 0xBF) (h5 : c = 0xF0 → 0x90 ≤ b1) (h6 : c = 0xF4 → b1 ≤ 0x8F)
    (h7 : 0x80 ≤ b2) (h8 : b2 ≤ 0xBF) (h9 : 0x80 ≤ b3) (h10 : b3 ≤ 0xBF) :
    DecodeRune (c :: b1 :: b2 :: b3 :: t)
      = (c % 8 * 262144 + b1 % 64 * 4096 + b2 % 64 * 64 + b3 % 64, 4) := by
  have e1 : ¬ c < 0x80 := by omega
  have e2 : ¬ (c < 0xC2 ∨ 0xF4 < c) := by omega
  have e3 : ¬ c < 0xE0 := by omega
  have e3' : ¬ c < 0xF0 := by omega
  have e5 : ¬ c = 0xE0 := by omega
  have e7 : ¬ c = 0xED := by omega
  have e8 : ¬ (b2 < 0x80 ∨ 0xBF < b2) := by omega
  have e8' : ¬ (b3 < 0x80 ∨ 0xBF < b3) := by omega
  by_cases a : c = 0xF0
  · subst a
    have e9 : ¬ (b1 < 0x90 ∨ 0xBF < b1) := by omega
    simp [DecodeRune, e8, e8', e9]
  · by_cases b : c = 0xF4
    · subst b
      have e9 : ¬ (b1 < 0x80 ∨ 0x8F < b1) := by omega
      simp [DecodeRune, e8, e8', e9]
    · have e9 : ¬ (b1 < 0x80 ∨ 0xBF < b1) := by omega
      simp [DecodeRune, e1, e2, e3, e3', e5, e7, e8, e8', e9, a, b]

/-- The shapes of a decoded non-ASCII head. -/
theorem DecodeRune_cases (c : Nat) (rest : List Nat) (hc : 0x80 ≤ c) :
    DecodeRune (c :: rest) = (RuneError, 1) ∨
    (∃ b1 t, rest = b1 :: t ∧ 0xC2 ≤ c ∧ c ≤ 0xDF ∧ 0x80 ≤ b1 ∧ b1 ≤ 0xBF) ∨
    (∃ b1 b2 t, rest = b1 :: b2 :: t ∧ 0xE0 ≤ c ∧ c ≤ 0xEF ∧ 0x80 ≤ b1 ∧ b1 ≤ 0xBF ∧
      (c = 0xE0 → 0xA0 ≤ b1) ∧ (c = 0xED → b1 ≤ 0x9F) ∧ 0x80 ≤ b2 ∧ b2 ≤ 0xBF) ∨
    (∃ b1 b2 b3 t, rest = b1 :: b2 :: b3 :: t ∧ 0xF0 ≤ c ∧ c ≤ 0xF4 ∧ 0x80 ≤ b1 ∧ b1 ≤ 0xBF ∧
      (c = 0xF0 → 0x90 ≤ b1) ∧ (c = 0xF4 → b1 ≤ 0x8F) ∧ 0x80 ≤ b2 ∧ b2 ≤ 0xBF ∧
      0x80 ≤ b3 ∧ b3 ≤ 0xBF) := by
  by_cases hx : c < 0xC2 ∨ 0xF4 < c
  · left
    have e1 : ¬ c < 0x80 := by omega
    simp [DecodeRune, e1, hx]
  · have hx1 : 0xC2 ≤ c := by omega
    have hx2 : c ≤ 0xF4 := by omega
    have e1 : ¬ c < 0x80 := by omega
    rcases rest with _ | ⟨b1, rest1⟩
    · left; simp [DecodeRune, e1, hx]
    · by_cases hb1 : b1 < (if c = 0xE0 then 0xA0 else if c = 0xF0 then 0x90 else 0x80) ∨
          (if c = 0xED then 0x9F else if c = 0xF4 then 0x8F else 0xBF) < b1
      · left
        simp only [DecodeRune, e1, hx, if_false, hb1, if_true]
        split_ifs <;> rfl
      · have g1 : 0x80 ≤ b1 ∧ b1 ≤ 0xBF ∧ (c = 0xE0 → 0xA0 ≤ b1) ∧ (c = 0xED → b1 ≤ 0x9F) ∧
            (c = 0xF0 → 0x90 ≤ b1) ∧ (c = 0xF4 → b1 ≤ 0x8F) := by
          split_ifs at hb1 <;> omega
        by_cases s2 : c < 0xE0
        · right; left; exact ⟨b1, rest1, rfl, hx1, by omega, g1.1, g1.2.1⟩
        · rcases rest1 with _ | ⟨b2, rest2⟩
          · left
            have : ¬ c < 0xE0 := s2
            simp only [DecodeRune, e1, hx, if_false, this, List.length_cons, List.length_nil]
            split_ifs <;> first | rfl | omega
          · by_cases hb2 : b2 < 0x80 ∨ 0xBF < b2
            · left
              simp only [DecodeRune, e1, hx, if_false, s2, hb1, hb2, if_true]
              split_ifs <;> first | rfl | omega
            · by_cases s3 : c < 0xF0
              · right; right; left
                exact ⟨b1, b2, rest2, rfl, by omega, by omega, g1.1, g1.2.1, g1.2.2.1,
                  g1.2.2.2.1, by omega, by omega⟩
              · rcases rest2 with _ | ⟨b3, rest3⟩
                · left
                  simp only [DecodeRune, e1, hx, if_false, s2, s3, hb1, hb2, List.length_cons,
                    List.length_nil]
                  split_ifs <;> first | rfl | omega
                · by_cases hb3 : b3 < 0x80 ∨ 0xBF < b3
                  · left
                    simp only [DecodeRune, e1, hx, if_false, s2, s3, hb1, hb2, hb3, if_true]
                    split_ifs <;> first | rfl | omega
                  · right; right; right
                    exact ⟨b1, b2, b3, rest3, rfl, by omega, by omega, g1.1, g1.2.1,
                      g1.2.2.2.2.1, g1.2.2.2.2.2, by omega, by omega, by omega, by omega⟩

theorem isRune_two (c b1 : Nat) (h1 : 0xC2 ≤ c) (h2 : c ≤ 0xDF)
    (h3 : 0x80 ≤ b1) (h4 : b1 ≤ 0xBF) : IsRune [c, b1] := by
  refine ⟨by simp, ?_, fun t => ?_⟩
  · intro b hb; simp at hb; omega
  · simp only [List.cons_append, List.nil_append, DecodeRune_two c b1 t h1 h2 h3 h4]
    refine ⟨rfl, ?_⟩
    have a1 : ¬ (c % 32 * 64 + b1 % 64 ≤ 0x7F) := by omega
    have a2 : c % 32 * 64 + b1 % 64 ≤ 0x7FF := by omega
    simp only [EncodeRune, a1, a2, if_false, if_true]
    congr 1
    · omega
    · congr 1; omega

theorem isRune_three (c b1 b2 : Nat) (h1 : 0xE0 ≤ c) (h2 : c ≤ 0xEF)
    (h3 : 0x80 ≤ b1) (h4 : b1 ≤ 0xBF) (h5 : c = 0xE0 → 0xA0 ≤ b1) (h6 : c = 0xED → b1 ≤ 0x9F)
    (h7 : 0x80 ≤ b2) (h8 : b2 ≤ 0xBF) : IsRune [c, b1, b2] := by
  refine ⟨by simp, ?_, fun t => ?_⟩
  · intro b hb; simp at hb; omega
  · simp only [List.cons_append, List.nil_append,
      DecodeRune_three c b1 b2 t h1 h2 h3 h4 h5 h6 h7 h8]
    refine ⟨rfl, ?_⟩
    have a1 : ¬ (c % 16 * 4096 + b1 % 64 * 64 + b2 % 64 ≤ 0x7F) := by omega
    have a2 : ¬ (c % 16 * 4096 + b1 % 64 * 64 + b2 % 64 ≤ 0x7FF) := by omega
    have a3 : ¬ (c % 16 * 4096 + b1 % 64 * 64 + b2 % 64 > 0x10FFFF ∨
        (0xD800 ≤ c % 16 * 4096 + b1 % 64 * 64 + b2 % 64 ∧
          c % 16 * 4096 + b1 % 64 * 64 + b2 % 64 ≤ 0xDFFF)) := by omega
    have a4 : c % 16 * 4096 + b1 % 64 * 64 + b2 % 64 ≤ 0xFFFF := by omega
    simp only [EncodeRune, a1, a2, a3, a4, if_false, if_true]
    congr 1
    · omega
    · congr 1
      · omega
      · congr 1; omega

theorem isRune_four (c b1 b2 b3 : Nat) (h1 : 0xF0 ≤ c) (h2 : c ≤ 0xF4)
    (h3 : 0x80 ≤ b1) (h4 : b1 ≤ 0xBF) (h5 : c = 0xF0 → 0x90 ≤ b1) (h6 : c = 0xF4 → b1 ≤ 0x8F)
    (h7 : 0x80 ≤ b2) (h8 : b2 ≤ 0xBF) (h9 : 0x80 ≤ b3) (h10 : b3 ≤ 0xBF) :
    IsRune [c, b1, b2, b3] := by
  refine ⟨by simp, ?_, fun t => ?_⟩
  · intro b hb; simp at hb; omega
  · simp only [List.cons_append, List.nil_append,
      DecodeRune_four c b1 b2 b3 t h1 h2 h3 h4 h5 h6 h7 h8 h9 h10]
    refine ⟨rfl, ?_⟩
    have a1 : ¬ (c % 8 * 262144 + b1 % 64 * 4096 + b2 % 64 * 64 + b3 % 64 ≤ 0x7F) := by omega
    have a2 : ¬ (c % 8 * 262144 + b1 % 64 * 4096 + b2 % 64 * 64 + b3 % 64 ≤ 0x7FF) := by omega
    have a3 : ¬ (c % 8 * 262144 + b1 % 64 * 4096 + b2 % 64 * 64 + b3 % 64 > 0x10FFFF ∨
        (0xD800 ≤ c % 8 * 262144 + b1 % 64 * 4096 + b2 % 64 * 64 + b3 % 64 ∧
          c % 8 * 262144 + b1 % 64 * 4096 + b2 % 64 * 64 + b3 % 64 ≤ 0xDFFF)) := by omega
    have a4 : ¬ (c % 8 * 262144 + b1 % 64 * 4096 + b2 % 64 * 64 + b3 % 64 ≤ 0xFFFF) := by omega
    simp only [EncodeRune, a1, a2, a3, a4, if_false]
    congr 1
    · omega
    · congr 1
      · omega
      · congr 1
        · omega
        · congr 1; omega

/-- A non-ASCII head either fails to decode (width 1) or starts a well-formed rune. -/
theorem DecodeRune_split (c : Nat) (rest : List Nat) (hc : 0x80 ≤ c) :
    DecodeRune (c :: rest) = (RuneError, 1) ∨
    ∃ chunk t, c :: rest = chunk ++ t ∧ IsRune chunk := by
  rcases DecodeRune_cases c rest hc with h | ⟨b1, t, rfl, h⟩ | ⟨b1, b2, t, rfl, h⟩ |
      ⟨b1, b2, b3, t, rfl, h⟩
  · exact Or.inl h
  · exact Or.inr ⟨[c, b1], t, rfl, isRune_two c b1 h.1 h.2.1 h.2.2.1 h.2.2.2⟩
  · exact Or.inr ⟨[c, b1, b2], t, rfl, isRune_three c b1 b2 h.1 h.2.1 h.2.2.1 h.2.2.2.1
      h.2.2.2.2.1 h.2.2.2.2.2.1 h.2.2.2.2.2.2.1 h.2.2.2.2.2.2.2⟩
  · exact Or.inr ⟨[c, b1, b2, b3], t, rfl, isRune_four c b1 b2 b3 h.1 h.2.1 h.2.2.1 h.2.2.2.1
      h.2.2.2.2.1 h.2.2.2.2.2.1 h.2.2.2.2.2.2.1 h.2.2.2.2.2.2.2.1 h.2.2.2.2.2.2.2.2.1
      h.2.2.2.2.2.2.2.2.2⟩

theorem hexVal_hexDigit (n : Nat) (h : n < 16) : hexVal (hexDigit n) = some n := by
  interval_cases n <;> rfl

theorem appendString_enc (n : Nat) : ∀ (s : List Nat), s.length ≤ n → validUTF8 n s = true →
    Enc s (appendString n s) := by
  induction n with
  | zero =>
    intro s hl _
    have : s = [] := List.length_eq_zero.mp (by omega)
    subst this
    exact Enc.nil
  | succ n ih =>
    intro s hl hv
    rcases s with _ | ⟨c, rest⟩
    · exact Enc.nil
    · have hl' : rest.length ≤ n := by simpa using hl
      by_cases hc : c < 0x80
      · have hv' : validUTF8 n rest = true := by
          simpa [validUTF8, hc] using hv
        have ihr := ih rest hl' hv'
        simp only [appendString, hc, if_true]
        by_cases hsafe : htmlSafe c = true
        · rw [if_pos hsafe]
          simp only [htmlSafe, decide_eq_true_eq] at hsafe
          exact Enc.plain c rest _ ⟨hsafe.1, hsafe.2.1, hsafe.2.2.1, hsafe.2.2.2.2.2.2⟩ ihr
        · rw [if_neg hsafe]
          unfold escapeByte
          split_ifs with e1 e2 e3 e4 e5 e6
          · rcases e1 with e1 | e1
            · subst e1; exact Enc.short 92 92 rest _ (by decide) ihr
            · subst e1; exact Enc.short 34 34 rest _ (by decide) ihr
          · subst e2; exact Enc.short 8 98 rest _ (by decide) ihr
          · subst e3; exact Enc.short 12 102 rest _ (by decide) ihr
          · subst e4; exact Enc.short 10 110 rest _ (by decide) ihr
          · subst e5; exact Enc.short 13 114 rest _ (by decide) ihr
          · subst e6; exact Enc.short 9 116 rest _ (by decide) ihr
          · have key := Enc.uesc [c] 48 48 (hexDigit (c / 16)) (hexDigit (c % 16)) 0 0 (c / 16)
              (c % 16) rest (appendString n rest)
              ⟨rfl, rfl, hexVal_hexDigit _ (by omega), hexVal_hexDigit _ (by omega)⟩
              (by
                have : ((0 * 16 + 0) * 16 + c / 16) * 16 + c % 16 = c := by omega
                rw [this]; simp only [EncodeRune]; rw [if_pos (by omega)])
              (by omega) ihr
            simpa using key
      · have hc' : 0x80 ≤ c := by omega
        have hv2 : (DecodeRune (c :: rest)).2 ≠ 1 ∧
            validUTF8 n ((c :: rest).drop (DecodeRune (c :: rest)).2) = true := by
          simp only [validUTF8, hc, if_false] at hv
          by_cases h1 : (DecodeRune (c :: rest)).2 = 1
          · simp [h1] at hv
          · exact ⟨h1, by simpa [h1] using hv⟩
        rcases DecodeRune_split c rest hc' with h | ⟨chunk, t, hs, hr⟩
        · exact absurd (by rw [h]) hv2.1
        · have hd := hr.2.2 t
          rw [← hs] at hd
          have hdrop : (c :: rest).drop (DecodeRune (c :: rest)).2 = t := by
            rw [hd.1, hs, List.drop_left]
          have htake : (c :: rest).take (DecodeRune (c :: rest)).2 = chunk := by
            rw [hd.1, hs, List.take_left]
          have hlt : t.length ≤ n := by
            have := congrArg List.length hs
            simp only [List.length_cons, List.length_append] at this
            have := hr.1
            omega
          have ihr := ih t hlt (by rw [← hdrop]; exact hv2.2)
          have hne : ¬ ((DecodeRune (c :: rest)).1 = RuneError ∧ (DecodeRune (c :: rest)).2 = 1) :=
            fun h => hv2.1 h.2
          simp only [appendString, hc, if_false, hne, hdrop, htake]
          by_cases hsep : (DecodeRune (c :: rest)).1 = 0x2028 ∨ (DecodeRune (c :: rest)).1 = 0x2029
          · rw [if_pos hsep]
            rcases hsep with h28 | h29
            · have key := Enc.uesc chunk 50 48 50 56 2 0 2 8 t (appendString n t)
                ⟨rfl, rfl, rfl, rfl⟩ (by rw [← hd.2, h28]) (by omega) ihr
              rw [h28, hs]; exact key
            · have key := Enc.uesc chunk 50 48 50 57 2 0 2 9 t (appendString n t)
                ⟨rfl, rfl, rfl, rfl⟩ (by rw [← hd.2, h29]) (by omega) ihr
              rw [h29, hs]; exact key
          · rw [if_neg hsep, hs]
            exact Enc.rune chunk t _ hr ihr

theorem hexVal_isHex (h a : Nat) (hh : hexVal h = some a) : isHex h = true := by
  unfold hexVal at hh
  unfold isHex
  split_ifs at hh with h1 h2 h3
  · simp [h1]
  · simp [h2]
  · simp [h3]

theorem scanString_quote (x : List Nat) : scanString (34 :: x) = some ([], x) := by
  rw [scanString.eq_def]; simp

theorem scanString_cons_plain (c : Nat) (x : List Nat) (h1 : c ≠ 34) (h2 : c ≠ 92)
    (h3 : ¬ c < 32) :
    scanString (c :: x) = (scanString x).map (fun r => (c :: r.1, r.2)) := by
  rw [scanString.eq_def]; simp only [h1, h2, h3, if_false]

theorem scanString_short (e : Nat) (x : List Nat)
    (he : e = 98 ∨ e = 102 ∨ e = 110 ∨ e = 114 ∨ e = 116 ∨ e = 92 ∨ e = 47 ∨ e = 34) :
    scanString (92 :: e :: x) = (scanString x).map (fun r => (92 :: e :: r.1, r.2)) := by
  rw [scanString.eq_def]
  simp only [show (92 : Nat) ≠ 34 from by decide, if_false, if_true, he]

theorem scanString_uesc (h1 h2 h3 h4 : Nat) (x : List Nat)
    (hh : isHex h1 = true ∧ isHex h2 = true ∧ isHex h3 = true ∧ isHex h4 = true) :
    scanString (92 :: 117 :: h1 :: h2 :: h3 :: h4 :: x)
      = (scanString x).map (fun r => (92 :: 117 :: h1 :: h2 :: h3 :: h4 :: r.1, r.2)) := by
  rw [scanString.eq_def]
  have e1 : ¬ ((117 : Nat) = 98 ∨ (117 : Nat) = 102 ∨ (117 : Nat) = 110 ∨ (117 : Nat) = 114 ∨
      (117 : Nat) = 116 ∨ (117 : Nat) = 92 ∨ (117 : Nat) = 47 ∨ (117 : Nat) = 34) := by decide
  simp only [show (92 : Nat) ≠ 34 from by decide, if_false, if_true, e1, hh, and_self]

theorem unquoteLoop_nil (f : Nat) : unquoteLoop (f + 1) [] = some [] := by
  rw [unquoteLoop.eq_def]

theorem unquoteLoop_plain (f c : Nat) (x : List Nat) (h1 : c ≠ 92) (h2 : ¬ (c = 34 ∨ c < 32))
    (h3 : c < 0x80) :
    unquoteLoop (f + 1) (c :: x) = (unquoteLoop f x).map (c :: ·) := by
  rw [unquoteLoop.eq_def]; simp only [h1, h2, h3, if_false, if_true]

theorem unquoteLoop_short (f c e : Nat) (x : List Nat)
    (h : (c = 34 ∧ e = 34) ∨ (c = 92 ∧ e = 92) ∨ (c = 8 ∧ e = 98) ∨ (c = 12 ∧ e = 102) ∨
        (c = 10 ∧ e = 110) ∨ (c = 13 ∧ e = 114) ∨ (c = 9 ∧ e = 116)) :
    unquoteLoop (f + 1) (92 :: e :: x) = (unquoteLoop f x).map (c :: ·) := by
  rw [unquoteLoop.eq_def]
  rcases h with ⟨rfl, rfl⟩ | ⟨rfl, rfl⟩ | ⟨rfl, rfl⟩ | ⟨rfl, rfl⟩ | ⟨rfl, rfl⟩ | ⟨rfl, rfl⟩ |
    ⟨rfl, rfl⟩ <;> simp

theorem unquoteLoop_uesc (f h1 h2 h3 h4 r : Nat) (x : List Nat)
    (hg : getu4 (92 :: 117 :: h1 :: h2 :: h3 :: h4 :: x) = some r)
    (hn : ¬ (0xD800 ≤ r ∧ r < 0xE000)) :
    unquoteLoop (f + 1) (92 :: 117 :: h1 :: h2 :: h3 :: h4 :: x)
      = (unquoteLoop f x).map (EncodeRune r ++ ·) := by
  rw [unquoteLoop.eq_def]
  have e1 : ¬ ((117 : Nat) = 34 ∨ (117 : Nat) = 92 ∨ (117 : Nat) = 47 ∨ (117 : Nat) = 39) := by
    decide
  simp only [if_true, e1, if_false, show (117 : Nat) ≠ 98 from by decide,
    show (117 : Nat) ≠ 102 from by decide, show (117 : Nat) ≠ 110 from by decide,
    show (117 : Nat) ≠ 114 from by decide, show (117 : Nat) ≠ 116 from by decide, hg, hn,
    List.drop_succ_cons, List.drop_zero]

theorem unquoteLoop_high (f c : Nat) (x : List Nat) (hc : 0x80 ≤ c) :
    unquoteLoop (f + 1) (c :: x)
      = (unquoteLoop f ((c :: x).drop (DecodeRune (c :: x)).2)).map
          (EncodeRune (DecodeRune (c :: x)).1 ++ ·) := by
  rw [unquoteLoop.eq_def]
  have e1 : ¬ c = 92 := by omega
  have e2 : ¬ (c = 34 ∨ c < 32) := by omega
  have e3 : ¬ c < 0x80 := by omega
  simp only [e1, e2, e3, if_false]

theorem scanString_high (pre x : List Nat) (h : ∀ b ∈ pre, 0x80 ≤ b) :
    scanString (pre ++ x) = (scanString x).map (fun r => (pre ++ r.1, r.2)) := by
  induction pre with
  | nil => simp
  | cons b pre ih =>
    have hb : 0x80 ≤ b := h b (List.mem_cons_self _ _)
    rw [List.cons_append, scanString_cons_plain b _ (by omega) (by omega) (by omega),
      ih (fun b' hb' => h b' (List.mem_cons_of_mem _ hb'))]
    cases scanString x <;> simp

theorem enc_scan (s t : List Nat) (h : Enc s t) (rest : List Nat) :
    scanString (t ++ 34 :: rest) = some (t, rest) := by
  induction h with
  | nil => rw [List.nil_append, scanString_quote]
  | plain c s t hc _ ih =>
    rw [List.cons_append, scanString_cons_plain c _ hc.2.2.1 hc.2.2.2 (by omega), ih]; rfl
  | short c e s t hce _ ih =>
    have he : e = 98 ∨ e = 102 ∨ e = 110 ∨ e = 114 ∨ e = 116 ∨ e = 92 ∨ e = 47 ∨ e = 34 := by
      omega
    simp only [List.cons_append]
    rw [scanString_short e _ he, ih]; rfl
  | uesc src h1 h2 h3 h4 a b c d s t hh _ _ _ ih =>
    simp only [List.cons_append]
    rw [scanString_uesc h1 h2 h3 h4 _ ⟨hexVal_isHex _ _ hh.1, hexVal_isHex _ _ hh.2.1,
      hexVal_isHex _ _ hh.2.2.1, hexVal_isHex _ _ hh.2.2.2⟩, ih]; rfl
  | rune chunk s t hr _ ih =>
    rw [List.append_assoc, scanString_high chunk _ hr.2.1, ih]; rfl

theorem enc_loop (s t : List Nat) (h : Enc s t) :
    ∀ f, t.length < f → unquoteLoop f t = some s := by
  induction h with
  | nil =>
    intro f hf
    cases f with
    | zero => simp at hf
    | succ f => exact unquoteLoop_nil f
  | plain c s t hc _ ih =>
    intro f hf
    cases f with
    | zero => simp at hf
    | succ f =>
      have hf' : t.length < f := by simpa using hf
      rw [unquoteLoop_plain f c t hc.2.2.2 (by omega) hc.2.1, ih f hf']; rfl
  | short c e s t hce _ ih =>
    intro f hf
    cases f with
    | zero => simp at hf
    | succ f =>
      have hf' : t.length < f := by simp only [List.length_cons] at hf; omega
      rw [unquoteLoop_short f c e t hce, ih f hf']; rfl
  | uesc src h1 h2 h3 h4 a b c d s t hh hs hn _ ih =>
    intro f hf
    cases f with
    | zero => simp at hf
    | succ f =>
      have hf' : t.length < f := by simp only [List.length_cons] at hf; omega
      have hg : getu4 (92 :: 117 :: h1 :: h2 :: h3 :: h4 :: t)
          = some (((a * 16 + b) * 16 + c) * 16 + d) := by
        simp [getu4, hh.1, hh.2.1, hh.2.2.1, hh.2.2.2]
      rw [unquoteLoop_uesc f h1 h2 h3 h4 _ t hg hn, ih f hf', hs]; rfl
  | rune chunk s t hr _ ih =>
    intro f hf
    cases f with
    | zero => simp at hf
    | succ f =>
      have hf' : t.length < f := by
        simp only [List.length_append] at hf; have := hr.1; omega
      rcases chunk with _ | ⟨c, tail⟩
      · have := hr.1; simp at this
      · have hc : 0x80 ≤ c := hr.2.1 c (List.mem_cons_self _ _)
        have hd := hr.2.2 t
        rw [List.cons_append] at hd ⊢
        rw [unquoteLoop_high f c _ hc, hd.1, hd.2, ← List.cons_append, List.drop_left,
          ih f hf']; rfl

theorem plainPrefix_nil (f : Nat) : plainPrefix f [] = ([], []) := by
  cases f <;> rfl

theorem plainPrefix_stop (f c : Nat) (x : List Nat) (h : c = 92 ∨ c = 34 ∨ c < 32) :
    plainPrefix (f + 1) (c :: x) = ([], c :: x) := by
  rw [plainPrefix.eq_def]; simp only [h, if_true]

theorem plainPrefix_plain (f c : Nat) (x : List Nat) (h : ¬ (c = 92 ∨ c = 34 ∨ c < 32))
    (h2 : c < 0x80) :
    plainPrefix (f + 1) (c :: x) = (c :: (plainPrefix f x).1, (plainPrefix f x).2) := by
  rw [plainPrefix.eq_def]; simp only [h, h2, if_false, if_true]

theorem plainPrefix_high (f c : Nat) (x : List Nat) (hc : 0x80 ≤ c)
    (hd : ¬ ((DecodeRune (c :: x)).1 = RuneError ∧ (DecodeRune (c :: x)).2 = 1)) :
    plainPrefix (f + 1) (c :: x)
      = ((c :: x).take (DecodeRune (c :: x)).2 ++
            (plainPrefix f ((c :: x).drop (DecodeRune (c :: x)).2)).1,
          (plainPrefix f ((c :: x).drop (DecodeRune (c :: x)).2)).2) := by
  rw [plainPrefix.eq_def]
  have e1 : ¬ (c = 92 ∨ c = 34 ∨ c < 32) := by omega
  have e2 : ¬ c < 0x80 := by omega
  simp only [e1, e2, hd, if_false]

theorem enc_prefix (s t : List Nat) (h : Enc s t) :
    ∀ f, t.length ≤ f → ∃ s2, s = (plainPrefix f t).1 ++ s2 ∧
      t = (plainPrefix f t).1 ++ (plainPrefix f t).2 ∧
      ((plainPrefix f t).2 = [] → s2 = []) ∧
      ∀ g, (plainPrefix f t).2.length < g → unquoteLoop g (plainPrefix f t).2 = some s2 := by
  induction h with
  | nil =>
    intro f _
    rw [plainPrefix_nil]
    exact ⟨[], rfl, rfl, fun _ => rfl, fun g hg => enc_loop [] [] Enc.nil g hg⟩
  | plain c s t hc _ ih =>
    intro f hf
    cases f with
    | zero => simp at hf
    | succ f =>
      obtain ⟨s2, h1, h2, h3, h4⟩ := ih f (by simpa using hf)
      rw [plainPrefix_plain f c t (by omega) hc.2.1]
      refine ⟨s2, ?_, ?_, h3, h4⟩
      · simp only [List.cons_append]; rw [← h1]
      · simp only [List.cons_append]; rw [← h2]
  | short c e s t hce hst _ =>
    intro f hf
    cases f with
    | zero => simp at hf
    | succ f =>
      rw [plainPrefix_stop f 92 _ (Or.inl rfl)]
      exact ⟨c :: s, rfl, rfl, fun h => by simp at h,
        fun g hg => enc_loop _ _ (Enc.short c e s t hce hst) g hg⟩
  | uesc src h1 h2 h3 h4 a b c d s t hh hs hn hst _ =>
    intro f hf
    cases f with
    | zero => simp at hf
    | succ f =>
      rw [plainPrefix_stop f 92 _ (Or.inl rfl)]
      exact ⟨src ++ s, rfl, rfl, fun h => by simp at h,
        fun g hg => enc_loop _ _ (Enc.uesc src h1 h2 h3 h4 a b c d s t hh hs hn hst) g hg⟩
  | rune chunk s t hr _ ih =>
    intro f hf
    cases f with
    | zero =>
      have := hr.1
      simp only [List.length_append] at hf; omega
    | succ f =>
      have hf' : t.length ≤ f := by
        simp only [List.length_append] at hf; have := hr.1; omega
      obtain ⟨s2, h1, h2, h3, h4⟩ := ih f hf'
      rcases chunk with _ | ⟨c, tail⟩
      · have := hr.1; simp at this
      · have hc : 0x80 ≤ c := hr.2.1 c (List.mem_cons_self _ _)
        have hd := hr.2.2 t
        rw [List.cons_append] at hd
        have hne : ¬ ((DecodeRune (c :: (tail ++ t))).1 = RuneError ∧
            (DecodeRune (c :: (tail ++ t))).2 = 1) := by
          intro h; have := hr.1; rw [hd.1] at h; omega
        have hp : plainPrefix (f + 1) (c :: tail ++ t)
            = (c :: tail ++ (plainPrefix f t).1, (plainPrefix f t).2) := by
          rw [List.cons_append, plainPrefix_high f c _ hc hne, hd.1, ← List.cons_append,
            List.drop_left, List.take_left]
        rw [hp]
        refine ⟨s2, ?_, ?_, h3, h4⟩
        · simp only [List.append_assoc]; rw [← h1]
        · simp only [List.append_assoc]; rw [← h2]

theorem enc_unquote (s t : List Nat) (h : Enc s t) : unquoteBytes t = some s := by
  obtain ⟨s2, h1, h2, h3, h4⟩ := enc_prefix s t h t.length (le_refl _)
  unfold unquoteBytes
  simp only
  rcases hq : (plainPrefix t.length t).2 with _ | ⟨q, qs⟩
  · have := h3 hq
    subst this
    rw [hq] at h2
    simp only
    rw [h1, List.append_nil]
    rw [List.append_nil] at h2
    rw [← h2]
  · simp only
    rw [hq] at h4
    rw [h4 _ (Nat.lt_succ_self _), h1]; rfl

/-- The bytes between the quotes of an encoded well-formed string scan as a string
literal and unquote to the string. -/
theorem encodeString_inverse (s : List Nat) (hv : Valid s = true) :
    (∀ rest, scanString (appendString s.length s ++ 34 :: rest)
      = some (appendString s.length s, rest)) ∧
    unquoteBytes (appendString s.length s) = some s := by
  have h := appendString_enc s.length s (le_refl _) hv
  exact ⟨fun rest => enc_scan _ _ h rest, enc_unquote _ _ h⟩

theorem formatDigits_shape (u : Nat) : ∀ (fuel : Nat) (acc : List Nat), u < fuel →
    ∃ d ds, formatDigits fuel u acc = d :: ds ++ acc ∧ 48 ≤ d ∧ d ≤ 57 ∧
      (∀ x ∈ ds, 48 ≤ x ∧ x ≤ 57) ∧ (d = 48 → ds = []) := by
  induction u using Nat.strong_induction_on with
  | _ u ih =>
    intro fuel acc hf
    cases fuel with
    | zero => omega
    | succ f =>
      rw [formatDigits]
      by_cases h10 : u < 10
      · rw [if_pos h10]
        exact ⟨48 + u, [], rfl, by omega, by omega, by simp, fun _ => rfl⟩
      · rw [if_neg h10]
        obtain ⟨d, ds, h1, h2, h3, h4, h5⟩ :=
          ih (u / 10) (by omega) f ((48 + u % 10) :: acc) (by omega)
        -- the leading digit of a number that is at least 10 is not zero
        have hnz : d ≠ 48 := by
          intro hd
          have hds := h5 hd
          subst hds; subst hd
          -- evaluate: a one-digit result for u / 10 means u / 10 < 10 and the digit is 48 + u / 10
          cases f with
          | zero => omega
          | succ f' =>
            rw [formatDigits] at h1
            by_cases h100 : u / 10 < 10
            · rw [if_pos h100] at h1
              simp only [List.cons_append, List.nil_append, List.cons.injEq] at h1
              omega
            · rw [if_neg h100] at h1
              obtain ⟨d', ds', g1, _, _, _, _⟩ :=
                ih (u / 10 / 10) (by omega) f' ((48 + u / 10 % 10) :: (48 + u % 10) :: acc)
                  (by omega)
              rw [g1] at h1
              have := congrArg List.length h1
              simp at this
              omega
        refine ⟨d, ds ++ [48 + u % 10], ?_, h2, h3, ?_, fun hd => absurd hd hnz⟩
        · rw [h1]; simp
        · intro x hx
          rcases List.mem_append.mp hx with hx | hx
          · exact h4 x hx
          · simp at hx; omega

theorem takeDigits_run (ds : List Nat) (c : Nat) (rest : List Nat)
    (hds : ∀ x ∈ ds, 48 ≤ x ∧ x ≤ 57) (hc : ¬ (48 ≤ c ∧ c ≤ 57)) :
    takeDigits (ds ++ c :: rest) = (ds, c :: rest) := by
  induction ds with
  | nil => rw [List.nil_append, takeDigits]; simp only [hc, if_false]
  | cons d ds ih =>
    rw [List.cons_append, takeDigits]
    simp only [hds d (List.mem_cons_self _ _), and_self, if_true,
      ih (fun x hx => hds x (List.mem_cons_of_mem _ hx))]

theorem scanFraction_end (c : Nat) (rest : List Nat) (h1 : c ≠ 46) (h2 : c ≠ 101) (h3 : c ≠ 69) :
    scanFraction (c :: rest) = some ([], c :: rest) := by
  simp [scanFraction, scanExponent, h1, h2, h3]

/-- A run of digits without a leading zero, with an optional minus sign, followed
by a byte that cannot continue a number, scans as a number literal. -/
theorem scanNumber_digits (sign : List Nat) (d : Nat) (ds : List Nat) (c : Nat) (rest : List Nat)
    (hs : sign = [] ∨ sign = [45])
    (hd : 48 ≤ d ∧ d ≤ 57) (hds : ∀ x ∈ ds, 48 ≤ x ∧ x ≤ 57) (hz : d = 48 → ds = [])
    (hc : ¬ (48 ≤ c ∧ c ≤ 57)) (h1 : c ≠ 46) (h2 : c ≠ 101) (h3 : c ≠ 69) :
    scanNumber (sign ++ d :: ds ++ c :: rest) = some (sign ++ d :: ds, c :: rest) := by
  have hd45 : d ≠ 45 := by omega
  have key : ∀ sg : List Nat, (match (sg ++ d :: ds ++ c :: rest).drop sg.length with
      | [] => none
      | d' :: rest' =>
        if d' = 48 then (scanFraction rest').map (fun r => (sg ++ d' :: r.1, r.2))
        else if 49 ≤ d' ∧ d' ≤ 57 then
          (scanFraction (takeDigits rest').2).map
            (fun r => (sg ++ d' :: (takeDigits rest').1 ++ r.1, r.2))
        else none) = some (sg ++ d :: ds, c :: rest) := by
    intro sg
    rw [List.append_assoc, List.drop_left]
    simp only [List.cons_append]
    by_cases h48 : d = 48
    · have := hz h48
      subst this
      rw [if_pos h48, List.nil_append, scanFraction_end c rest h1 h2 h3]
      simp
    · rw [if_neg h48, if_pos (by omega), takeDigits_run ds c rest hds hc,
        scanFraction_end c rest h1 h2 h3]
      simp
  rcases hs with rfl | rfl
  · have := key []
    simp only [scanNumber, List.nil_append, List.cons_append, hd45, if_false, List.length_nil,
      List.drop_zero] at this ⊢
    exact this
  · have := key [45]
    simp only [scanNumber, List.cons_append, List.nil_append, if_true, List.length_cons,
      List.length_nil] at this ⊢
    exact this

/-- The text `strconv.Itoa` writes scans as a number literal when a closing brace
follows it, and its first byte is a minus sign or a digit. -/
theorem scanNumber_Itoa (v : Int) (rest : List Nat) :
    scanNumber (Itoa v ++ 125 :: rest) = some (Itoa v, 125 :: rest) ∧
    ∃ c tail, Itoa v = c :: tail ∧ (c = 45 ∨ (48 ≤ c ∧ c ≤ 57)) := by
  unfold Itoa FormatUint
  by_cases hneg : v < 0
  · rw [if_pos hneg]
    obtain ⟨d, ds, h1, h2, h3, h4, h5⟩ :=
      formatDigits_shape (-v).toNat ((-v).toNat + 1) [] (by omega)
    rw [h1, List.append_nil]
    refine ⟨?_, 45, d :: ds, rfl, Or.inl rfl⟩
    have := scanNumber_digits [45] d ds 125 rest (Or.inr rfl) ⟨h2, h3⟩ h4 h5 (by omega)
      (by decide) (by decide) (by decide)
    simpa using this
  · rw [if_neg hneg]
    obtain ⟨d, ds, h1, h2, h3, h4, h5⟩ :=
      formatDigits_shape v.toNat (v.toNat + 1) [] (by omega)
    rw [h1, List.append_nil]
    refine ⟨?_, d, ds, rfl, Or.inr ⟨h2, h3⟩⟩
    have := scanNumber_digits [] d ds 125 rest (Or.inl rfl) ⟨h2, h3⟩ h4 h5 (by omega)
      (by decide) (by decide) (by decide)
    simpa using this

theorem skipSpace_cons (c : Nat) (x : List Nat) (h : isSpace c = false) :
    skipSpace (c :: x) = c :: x := by
  rw [skipSpace]; simp [h]

theorem parseValue_string (f : Nat) (raw rest : List Nat)
    (h : scanString (raw ++ 34 :: rest) = some (raw, rest)) :
    parseValue (f + 1) (34 :: (raw ++ 34 :: rest)) = some (JValue.string raw, rest) := by
  rw [parseValue.eq_def]
  simp only [skipSpace_cons 34 _ (by decide)]
  simp [h]

theorem parseValue_number (f : Nat) (lit : List Nat) (c : Nat) (tail rest : List Nat)
    (hl : lit = c :: tail) (hc : c = 45 ∨ (48 ≤ c ∧ c ≤ 57))
    (h : scanNumber (lit ++ rest) = some (lit, rest)) :
    parseValue (f + 1) (lit ++ rest) = some (JValue.number lit, rest) := by
  subst hl
  rw [List.cons_append] at h ⊢
  rw [parseValue.eq_def]
  have hs : isSpace c = false := by
    rcases hc with rfl | hc
    · decide
    · simp only [isSpace, decide_eq_false_iff_not]; omega
  simp only [skipSpace_cons c _ hs]
  have e1 : c ≠ 123 := by omega
  have e2 : c ≠ 91 := by omega
  have e3 : c ≠ 34 := by omega
  simp only [e1, e2, e3, if_false, hc, if_true, h]; rfl

/-- One `"key":value` member followed by `,` or `}`. -/
theorem parseMembers_member (f : Nat) (key input : List Nat) (v : JValue) (c1 : Nat)
    (rest4 : List Nat)
    (hk : ∀ x ∈ key, 32 ≤ x ∧ x ≠ 34 ∧ x ≠ 92)
    (hv : parseValue f input = some (v, c1 :: rest4)) (hc1 : c1 = 44 ∨ c1 = 125) :
    parseMembers (f + 1) (34 :: (key ++ 34 :: 58 :: input)) =
      if c1 = 44 then (parseMembers f rest4).map (fun r => ((key, v) :: r.1, r.2))
      else some ([(key, v)], rest4) := by
  have hscan : scanString (key ++ 34 :: 58 :: input) = some (key, 58 :: input) := by
    clear hv
    induction key with
    | nil => rw [List.nil_append, scanString_quote]
    | cons x key ih =>
      have hx := hk x (List.mem_cons_self _ _)
      rw [List.cons_append, scanString_cons_plain x _ hx.2.1 hx.2.2 (by omega),
        ih (fun y hy => hk y (List.mem_cons_of_mem _ hy))]; rfl
  rw [parseMembers.eq_def]
  simp only [skipSpace_cons 34 _ (by decide), if_true, hscan,
    skipSpace_cons 58 _ (by decide), hv]
  rcases hc1 with rfl | rfl
  · simp only [skipSpace_cons 44 _ (by decide), if_true]
  · simp only [skipSpace_cons 125 _ (by decide), if_true]

theorem parseValue_candidate (g : Nat) (r : Candidate) (rest : List Nat)
    (hw : r.wellFormed) :
    parseValue (g + 6) (encodeCandidate r ++ rest) = some (candidateValue r, rest) := by
  have hN := (encodeString_inverse r.Name hw.1).1
  have hK := (encodeString_inverse r.Key hw.2.1).1
  have hE := (encodeString_inverse r.Election hw.2.2.1).1
  obtain ⟨hV, c, tail, hI, hc⟩ := scanNumber_Itoa r.Votes rest
  -- the four values
  have v4 : parseValue (g + 1) (Itoa r.Votes ++ 125 :: rest)
      = some (JValue.number (Itoa r.Votes), 125 :: rest) :=
    parseValue_number g _ c tail _ hI hc hV
  have m4 : parseMembers (g + 2) (34 :: (ascii "votes" ++ 34 :: 58 ::
      (Itoa r.Votes ++ 125 :: rest)))
      = some ([(ascii "votes", JValue.number (Itoa r.Votes))], rest) := by
    rw [parseMembers_member (g + 1) (ascii "votes") _ _ 125 rest (by decide) v4 (Or.inr rfl)]
    simp
  have v3 := parseValue_string (g + 1) (appendString r.Election.length r.Election)
    (44 :: 34 :: (ascii "votes" ++ 34 :: 58 :: (Itoa r.Votes ++ 125 :: rest))) (hE _)
  have m3 := parseMembers_member (g + 2) (ascii "election") _ _ 44 _ (by decide) v3 (Or.inl rfl)
  rw [if_pos rfl, m4] at m3
  have v2 := parseValue_string (g + 2) (appendString r.Key.length r.Key)
    (44 :: 34 :: (ascii "election" ++ 34 :: 58 :: 34 ::
      (appendString r.Election.length r.Election ++ 34 :: 44 :: 34 ::
        (ascii "votes" ++ 34 :: 58 :: (Itoa r.Votes ++ 125 :: rest))))) (hK _)
  have m2 := parseMembers_member (g + 3) (ascii "key") _ _ 44 _ (by decide) v2 (Or.inl rfl)
  rw [if_pos rfl, m3] at m2
  have v1 := parseValue_string (g + 3) (appendString r.Name.length r.Name)
    (44 :: 34 :: (ascii "key" ++ 34 :: 58 :: 34 ::
      (appendString r.Key.length r.Key ++ 34 :: 44 :: 34 :: (ascii "election" ++ 34 :: 58 :: 34 ::
        (appendString r.Election.length r.Election ++ 34 :: 44 :: 34 ::
          (ascii "votes" ++ 34 :: 58 :: (Itoa r.Votes ++ 125 :: rest))))))) (hN _)
  have m1 := parseMembers_member (g + 4) (ascii "name") _ _ 44 _ (by decide) v1 (Or.inl rfl)
  rw [if_pos rfl, m2] at m1
  -- the input, spelled as the members expect it
  have hin : encodeCandidate r ++ rest = 123 :: 34 :: (ascii "name" ++ 34 :: 58 :: 34 ::
      (appendString r.Name.length r.Name ++ 34 :: 44 :: 34 :: (ascii "key" ++ 34 :: 58 :: 34 ::
      (appendString r.Key.length r.Key ++ 34 :: 44 :: 34 :: (ascii "election" ++ 34 :: 58 :: 34 ::
        (appendString r.Election.length r.Election ++ 34 :: 44 :: 34 ::
          (ascii "votes" ++ 34 :: 58 :: (Itoa r.Votes ++ 125 :: rest)))))))) := by
    have a1 : ascii "\x7b\"name\":" = 123 :: 34 :: (ascii "name" ++ [34, 58]) := by decide
    have a2 : ascii ",\"key\":" = 44 :: 34 :: (ascii "key" ++ [34, 58]) := by decide
    have a3 : ascii ",\"election\":" = 44 :: 34 :: (ascii "election" ++ [34, 58]) := by decide
    have a4 : ascii ",\"votes\":" = 44 :: 34 :: (ascii "votes" ++ [34, 58]) := by decide
    have a5 : ascii "\x7d" = [125] := by decide
    simp only [encodeCandidate, encodeString, a1, a2, a3, a4, a5, List.append_assoc,
      List.cons_append, List.nil_append]
  rw [hin, parseValue.eq_def]
  simp only [skipSpace_cons 123 _ (by decide), skipSpace_cons 34 _ (by decide), if_true,
    show (34 : Nat) ≠ 125 from by decide, if_false, m1]
  rfl

theorem decodeCandidate_value (r : Candidate) (hw : r.wellFormed) :
    decodeCandidate (candidateValue r) = some r := by
  have hN := (encodeString_inverse r.Name hw.1).2
  have hK := (encodeString_inverse r.Key hw.2.1).2
  have hE := (encodeString_inverse r.Election hw.2.2.1).2
  have hV : ParseInt (Itoa r.Votes) = (r.Votes, none) :=
    Atoi_Itoa r.Votes (by have := hw.2.2.2.1; omega) (by have := hw.2.2.2.2; omega)
  have k1 : unquoteBytes (ascii "name") = some (ascii "name") := by decide
  have k2 : unquoteBytes (ascii "key") = some (ascii "key") := by decide
  have k3 : unquoteBytes (ascii "election") = some (ascii "election") := by decide
  have k4 : unquoteBytes (ascii "votes") = some (ascii "votes") := by decide
  have f1 : lookupField (ascii "name") = some Field.name := by decide
  have f2 : lookupField (ascii "key") = some Field.key := by decide
  have f3 : lookupField (ascii "election") = some Field.election := by decide
  have f4 : lookupField (ascii "votes") = some Field.votes := by decide
  have hr : (-(2 ^ 31) ≤ r.Votes ∧ r.Votes < 2 ^ 31) := ⟨hw.2.2.2.1, hw.2.2.2.2⟩
  simp only [decodeCandidate, candidateValue, storeMembers, storeMember, k1, k2, k3, k4, f1, f2,
    f3, f4, storeString, storeInt32, hN, hK, hE, hV, Option.map_some', Candidate.zero, hr,
    and_self, if_true]

theorem encodeCandidate_head (r : Candidate) :
    ∃ tail, encodeCandidate r = 123 :: tail ∧ 7 ≤ tail.length := by
  refine ⟨34 :: (ascii "name" ++ [34, 58]) ++ (encodeString r.Name ++ ascii ",\"key\":" ++
    encodeString r.Key ++ ascii ",\"election\":" ++ encodeString r.Election ++
    ascii ",\"votes\":" ++ Itoa r.Votes ++ ascii "\x7d"), ?_, ?_⟩
  · have a1 : ascii "\x7b\"name\":" = 123 :: 34 :: (ascii "name" ++ [34, 58]) := by decide
    simp only [encodeCandidate, a1, List.append_assoc, List.cons_append]
  · simp only [List.length_append, List.length_cons]
    have : (ascii "name").length = 4 := by decide
    omega

theorem encodeElems_length (rs : List Candidate) : rs.length ≤ (encodeElems rs).length := by
  induction rs with
  | nil => simp
  | cons r rs ih =>
    obtain ⟨tail, h, hl⟩ := encodeCandidate_head r
    cases rs with
    | nil => simp only [encodeElems, h, List.length_cons, List.length_nil]; omega
    | cons r1 rs =>
      simp only [encodeElems, h, List.length_cons, List.length_append] at ih ⊢
      omega

theorem parseElems_encoded (rs : List Candidate) (r : Candidate) :
    ∀ (g : Nat) (rest : List Nat), (∀ x ∈ r :: rs, x.wellFormed) →
    parseElems (g + rs.length + 7) (encodeElems (r :: rs) ++ 93 :: rest)
      = some ((r :: rs).map candidateValue, rest) := by
  induction rs generalizing r with
  | nil =>
    intro g rest hw
    have hp := parseValue_candidate g r (93 :: rest) (hw r (List.mem_cons_self _ _))
    rw [parseElems.eq_def]
    simp only [encodeElems, List.length_nil, Nat.add_zero, hp,
      skipSpace_cons 93 _ (by decide), show (93 : Nat) ≠ 44 from by decide, if_false, if_true]
    rfl
  | cons r1 rs ih =>
    intro g rest hw
    have hp := parseValue_candidate (g + rs.length + 1) r
      (44 :: (encodeElems (r1 :: rs) ++ 93 :: rest)) (hw r (List.mem_cons_self _ _))
    have hi := ih r1 g rest (fun x hx => hw x (List.mem_cons_of_mem _ hx))
    have e : g + (r1 :: rs).length + 7 = (g + rs.length + 1 + 6) + 1 := by
      simp only [List.length_cons]; omega
    have e2 : g + rs.length + 1 + 6 = g + rs.length + 7 := by omega
    rw [e, parseElems.eq_def]
    simp only [encodeElems, List.append_assoc, List.cons_append, hp,
      skipSpace_cons 44 _ (by decide), if_true, e2, hi]
    rfl

/-- Decoding inverts encoding, whatever follows the array. -/
theorem jsonDecode_Marshal (rs : List Candidate) (hw : ∀ x ∈ rs, x.wellFormed) :
    jsonDecode (Marshal rs) = some rs := by
  have hdec : decodeElems (rs.map candidateValue) = some rs := by
    clear * - hw
    induction rs with
    | nil => rfl
    | cons r rs ih =>
      simp only [List.map_cons, decodeElems,
        decodeCandidate_value r (hw r (List.mem_cons_self _ _)),
        ih (fun x hx => hw x (List.mem_cons_of_mem _ hx))]
  unfold jsonDecode
  rcases rs with _ | ⟨r, rs⟩
  · decide
  · obtain ⟨tail, ht, _⟩ := encodeCandidate_head r
    have hl := encodeElems_length (r :: rs)
    have hfuel : ∃ g, 2 * (Marshal (r :: rs)).length + 2 = (g + rs.length + 7) + 1 := by
      refine ⟨2 * (Marshal (r :: rs)).length + 2 - (rs.length + 8), ?_⟩
      simp only [Marshal, List.length_cons, List.length_append, List.length_nil] at hl ⊢
      omega
    obtain ⟨g, hg⟩ := hfuel
    have hp := parseElems_encoded rs r g [] hw
    have hstart : ∃ c1 rest1, encodeElems (r :: rs) ++ [93] = c1 :: rest1 ∧ c1 = 123 := by
      cases rs with
      | nil => exact ⟨123, tail ++ [93], by simp [encodeElems, ht], rfl⟩
      | cons r1 rs => exact ⟨123, _, by simp only [encodeElems, ht, List.cons_append]; rfl, rfl⟩
    obtain ⟨c1, rest1, hs, hc1⟩ := hstart
    have hpv : parseValue (2 * (Marshal (r :: rs)).length + 2) (Marshal (r :: rs))
        = some (JValue.array ((r :: rs).map candidateValue), []) := by
      have hm : Marshal (r :: rs) = 91 :: 123 :: rest1 := by
        rw [Marshal, List.cons_append, hs, hc1]
      rw [hg, hm, parseValue.eq_def]
      subst hc1
      simp only [skipSpace_cons 91 _ (by decide), show (91 : Nat) ≠ 123 from by decide,
        if_false, if_true, skipSpace_cons 123 _ (by decide),
        show (123 : Nat) ≠ 93 from by decide]
      rw [← hs, hp]
      rfl
    rw [hpv]
    exact hdec

/-- C6 (as amended): for every array of records whose strings are well-formed
UTF-8 (and whose votes are `int32` values) and whose data command, `recieve data `
followed by the JSON encoding of the array, is at most 256 bytes long, the data
branch of `handleConn` decodes the command to an array equal to the original and
hands exactly that array to the sink.  A nil slice, written `null`, decodes to the
empty array. -/
theorem data_command_round_trip (s : Node) (conn : Nat) (old : List Nat) (rs : List Candidate)
    (hc : s.crashed = false) (hh : s.handlers conn = some old)
    (hw : allWellFormed rs) (hlen : (dataCommand rs).length ≤ 256) :
    jsonDecode ((dataCommand rs).drop 13) = some rs ∧
    (s.read conn (dataCommand rs)).inserted = s.inserted ++ [rs] ∧
    (s.read conn (ascii "recieve data null")).inserted = s.inserted ++ [[]] := by
  have hd : (dataCommand rs).drop 13 = Marshal rs := by
    have : (ascii "recieve data ").length = 13 := by decide
    rw [dataCommand, ← this, List.drop_left]
  have hj := jsonDecode_Marshal rs hw
  refine ⟨by rw [hd, hj], ?_, ?_⟩
  · exact (read_payload s conn old (Marshal rs) rs hc hh hlen hj).1
  · exact (read_payload s conn old (ascii "null") [] hc hh (by decide) (by decide)).1

set_option maxRecDepth 100000 in
theorem data_command_round_trip_witness :
    ((Node.start (ascii "7000")).accept 1).crashed = false ∧
    ((Node.start (ascii "7000")).accept 1).handlers 1 = some (List.replicate 256 0) ∧
    allWellFormed [⟨[0xC3, 0xA9, 34, 10], ascii "k<1>", [0xE2, 0x80, 0xA8], -3⟩, ⟨[], [], [], 7⟩] ∧
    (dataCommand [⟨[0xC3, 0xA9, 34, 10], ascii "k<1>", [0xE2, 0x80, 0xA8], -3⟩,
      ⟨[], [], [], 7⟩]).length ≤ 256 ∧
    (((Node.start (ascii "7000")).accept 1).read 1
      (dataCommand [⟨[0xC3, 0xA9, 34, 10], ascii "k<1>", [0xE2, 0x80, 0xA8], -3⟩,
        ⟨[], [], [], 7⟩])).inserted
      = [[⟨[0xC3, 0xA9, 34, 10], ascii "k<1>", [0xE2, 0x80, 0xA8], -3⟩, ⟨[], [], [], 7⟩]] :=
  have hw : allWellFormed
      [⟨[0xC3, 0xA9, 34, 10], ascii "k<1>", [0xE2, 0x80, 0xA8], -3⟩, ⟨[], [], [], 7⟩] := by
    intro r hr
    simp only [List.mem_cons, List.mem_singleton, List.not_mem_nil, or_false] at hr
    rcases hr with rfl | rfl <;> exact ⟨by decide, by decide, by decide, by decide, by decide⟩
  ⟨rfl, rfl, hw, by decide,
    (data_command_round_trip ((Node.start (ascii "7000")).accept 1) 1 (List.replicate 256 0)
      [⟨[0xC3, 0xA9, 34, 10], ascii "k<1>", [0xE2, 0x80, 0xA8], -3⟩, ⟨[], [], [], 7⟩]
      rfl rfl hw (by decide)).2.1⟩

set_option maxRecDepth 1000000 in
/-- C6 (counterexample): two arrays that the round trip does not preserve.  The
data command of a record with a 230-byte name is longer than 256 bytes: the read
delivers its first 256 bytes, which fail to decode, and neither that read nor the
read of the remaining bytes hands anything to the sink.  A record whose name is
the byte `0xFF` (not UTF-8) comes back with the name U+FFFD. -/
theorem round_trip_fails :
    (256 < (dataCommand [⟨List.replicate 230 97, [], [], 0⟩]).length ∧
     Valid (List.replicate 230 97) = true ∧
     (((Node.start (ascii "7000")).accept 1).read 1
        (dataCommand [⟨List.replicate 230 97, [], [], 0⟩])).inserted = [] ∧
     ((((Node.start (ascii "7000")).accept 1).read 1
        (dataCommand [⟨List.replicate 230 97, [], [], 0⟩])).read 1
        ((dataCommand [⟨List.replicate 230 97, [], [], 0⟩]).drop 256)).inserted = []) ∧
    ((dataCommand [⟨[255], [], [], 0⟩]).length ≤ 256 ∧
     (((Node.start (ascii "7000")).accept 1).read 1
        (dataCommand [⟨[255], [], [], 0⟩])).inserted
        = [[⟨[0xEF, 0xBF, 0xBD], [], [], 0⟩]] ∧
     [[(⟨[0xEF, 0xBF, 0xBD], [], [], 0⟩ : Candidate)]] ≠ [[⟨[255], [], [], 0⟩]]) := by
  decide

theorem read_crashes_iff (s : Node) (conn : Nat) (old data : List Nat)
    (hc : s.crashed = false) (hh : s.handlers conn = some old) :
    (s.read conn data).crashed = true ↔
      ((readInto old data).take 7 = ascii "connect" ∧ (data.take 256).length < 8) ∨
      ((readInto old data).take 7 ≠ ascii "connect" ∧
        (readInto old data).take 12 = ascii "recieve data" ∧ (data.take 256).length < 13) := by
  simp only [Node.read, hc, hh, Bool.false_eq_true, if_false]
  by_cases h7 : (readInto old data).take 7 = ascii "connect"
  · rw [if_pos h7]
    by_cases h8 : (data.take 256).length < 8
    · rw [if_pos h8]
      exact ⟨fun _ => Or.inl ⟨h7, h8⟩, fun _ => rfl⟩
    · rw [if_neg h8]
      constructor
      · intro h
        split at h <;> simp at h
      · rintro (⟨_, h⟩ | ⟨h, _⟩)
        · exact absurd h h8
        · exact absurd h7 h
  · rw [if_neg h7]
    by_cases h12 : (readInto old data).take 12 = ascii "recieve data"
    · rw [if_pos h12]
      by_cases h13 : (data.take 256).length < 13
      · rw [if_pos h13]
        exact ⟨fun _ => Or.inr ⟨h7, h12, h13⟩, fun _ => rfl⟩
      · rw [if_neg h13]
        constructor
        · intro h
          split at h <;> simp [hc] at h
        · rintro (⟨h, _⟩ | ⟨_, _, h⟩)
          · exact absurd h h7
          · exact absurd h h13
    · rw [if_neg h12]
      constructor
      · intro h
        simp [hc] at h
      · rintro (⟨h, _⟩ | ⟨_, h, _⟩)
        · exact absurd h h7
        · exact absurd h h12

/-- C11 (the code's defect, evaluated): processing a read can panic.  On a fresh
connection a read of the 7 bytes `connect` makes `handleConn` evaluate `buf[8:7]`,
and a read of the 12 bytes `recieve data` makes it evaluate `buf[13:12]`; with
`connect 7001` left in the buffer by an earlier read, a read of the single byte
`c` makes it evaluate `buf[8:1]`.  Each is out of bounds and ends the process. -/
theorem short_read_panics :
    (1 ≤ (ascii "connect").length ∧ (ascii "connect").length ≤ 256 ∧
     ((Node.start (ascii "7000")).accept 1).crashed = false ∧
     (((Node.start (ascii "7000")).accept 1).read 1 (ascii "connect")).crashed = true) ∧
    (1 ≤ (ascii "recieve data").length ∧ (ascii "recieve data").length ≤ 256 ∧
     (((Node.start (ascii "7000")).accept 1).read 1 (ascii "recieve data")).crashed = true) ∧
    (1 ≤ (ascii "c").length ∧ (ascii "c").length ≤ 256 ∧
     (((Node.start (ascii "7000")).accept 1).read 1 (ascii "connect 7001")).crashed = false ∧
     ((((Node.start (ascii "7000")).accept 1).read 1 (ascii "connect 7001")).read 1
        (ascii "c")).crashed = true) := by
  decide

/-- A read of at least 13 bytes never panics, whatever the buffer held. -/
theorem long_read_safe (s : Node) (conn : Nat) (old data : List Nat)
    (hc : s.crashed = false) (hh : s.handlers conn = some old) (h13 : 13 ≤ data.length) :
    (s.read conn data).crashed = false := by
  have hl : 13 ≤ (data.take 256).length := by rw [List.length_take]; omega
  have h := (read_crashes_iff s conn old data hc hh).not.mpr (by omega)
  simpa using h

end HonestVote
